import Mathlib

/-!
Verification development for the candle ingestion / persistence /
reconciliation pipeline.

The definitions below are a shallow embedding of the program's source:

* `src/services/collector/app/websocket/okx_client.py`
  (`OKXDataCollector`: timeframe rendering, candle-data processing,
  reconnect loop),
* `src/services/collector/app/core/config.py` (`Settings` backoff fields),
* `src/services/processor/app/processors/batch_processor.py`
  (`BatchProcessor.process_batch`, `send_to_dlq`),
* `src/scripts/ccxt_daily_maintenance.py`
  (`CCXTDailyMaintenance.detect_data_gaps`, `fill_data_gap`,
  `remove_duplicates`, `fix_invalid_data`),
* `src/scripts/ccxt_historical_backfill.py`
  (`CCXTHistoricalBackfill.insert_candles_batch`).

Modelling conventions:

* Python float price/volume columns are modelled as `Rat`: the program
  only parses, compares and copies these values; it performs no
  arithmetic on them, so exact rationals are a faithful value domain.
* The PostgreSQL table `trading.candlesticks` is a `List CRow` of rows in
  insertion order, carrying the surrogate monotonic `id` column; the
  serial id of a freshly inserted row is modelled as one more than the
  largest id present.
* Each SQL statement is modelled by the corresponding pure list
  transformation; a failing transaction is modelled by an explicit
  boolean outcome (the table is unchanged in that case, as the enclosing
  transaction rolls back).
* `asyncio` scheduling, logging, and Redis connectivity are not modelled;
  queue pushes are modelled by returning the list of pushed envelopes,
  and REST calls by an oracle function passed as an argument.
-/

/-! ### Python string replace

`okx_client.py` computes the envelope timeframe as
`channel_info.get('channel', '').replace('candle', '')`.  Python's
`str.replace` substitutes every non-overlapping occurrence of the
pattern, scanning left to right.  We model it on character lists with a
fuel argument (the length of the string), which keeps the function
structurally recursive and kernel-evaluable. -/

def replaceAllAux (pat rep : List Char) : Nat → List Char → List Char
  | _, [] => []
  | 0, s => s
  | fuel + 1, ch :: rest =>
    if pat ≠ [] ∧ pat.isPrefixOf (ch :: rest) then
      rep ++ replaceAllAux pat rep fuel (rest.drop (pat.length - 1))
    else
      ch :: replaceAllAux pat rep fuel rest

/-- Model of Python `s.replace(pat, rep)` for a non-empty pattern. -/
def pyReplace (s pat rep : String) : String :=
  String.mk (replaceAllAux pat.data rep.data s.data.length s.data)

/-! ### Collector: reconnect backoff

From `okx_client.py`, `OKXDataCollector.run` (lines 316-369) together with
`Settings.INITIAL_RECONNECT_DELAY = 5`, `Settings.MAX_RECONNECT_DELAY = 300`
(`config.py` lines 47-48).

Each iteration of the `while self.is_running` loop either reaches
streaming (connect + subscribe succeed, which resets `reconnect_delay` to
the initial value, then streams until disconnect) or fails before the
reset.  At the end of every iteration the loop sleeps `reconnect_delay`
seconds and then sets
`reconnect_delay := min (reconnect_delay * 2) MAX_RECONNECT_DELAY`.
An iteration outcome is `true` when streaming was entered. -/

def INITIAL_RECONNECT_DELAY : Nat := 5

def MAX_RECONNECT_DELAY : Nat := 300

/-- The sleep durations produced by `OKXDataCollector.run`, given the
current `reconnect_delay` and the list of iteration outcomes
(`true` = connect and subscribe succeeded, streaming was entered). -/
def runSleeps (initial maxDelay : Nat) : Nat → List Bool → List Nat
  | _, [] => []
  | d, outcome :: rest =>
    let d1 := if outcome then initial else d
    d1 :: runSleeps initial maxDelay (min (d1 * 2) maxDelay) rest

/-! ### Collector: candle-data processing

From `okx_client.py`, `OKXDataCollector.process_candle_data`
(lines 170-253), `_convert_timeframe_to_okx_format` (lines 87-98) and
`subscribe_channels` (lines 100-141).

A wire candle row is the nine-element array
`[ts, o, h, l, c, vol, volCcy, volCcyQuote, confirm]`; rows with fewer
than nine fields are skipped by the `len(candle_data) < 9` guard and are
not representable in `RawCandle`. -/

structure RawCandle where
  ts : Int
  o : Rat
  h : Rat
  l : Rat
  c : Rat
  vol : Rat
  volCcy : Rat
  volCcyQuote : Rat
  confirm : String
deriving DecidableEq, Repr

/-- A queue envelope: the `processed_data` dict built by
`process_candle_data`, extended with the optional `retry_count`,
`error` and `failed_at` keys added by the persister's DLQ path
(`none` models an absent key). -/
structure Envelope where
  symbol : String
  timeframe : String
  timestamp : Int
  openPrice : Rat
  highPrice : Rat
  lowPrice : Rat
  closePrice : Rat
  volume : Rat
  volumeCurrency : Rat
  confirm : Bool
  receivedAt : String
  source : String
  retryCount : Option Nat
  error : Option String
  failedAt : Option String
deriving DecidableEq, Repr

/-- The `processed_data` dict pushed onto `candle_data_queue`
(`okx_client.py` lines 220-233). -/
def mkEnvelope (symbol channel nowIso : String) (cd : RawCandle) : Envelope :=
  ⟨symbol, pyReplace channel "candle" "", cd.ts,
    cd.o, cd.h, cd.l, cd.c, cd.vol, cd.volCcy,
    true, nowIso, "okx_websocket", none, none, none⟩

/-- `process_candle_data`: iterate the `data` array, skip unconfirmed
candles (`candle_data[8] != "1"`), skip `volume <= 0`, skip
`close <= 0`, and push the envelope for each surviving candle. -/
def processCandleData (symbol channel nowIso : String) : List RawCandle → List Envelope
  | [] => []
  | cd :: rest =>
    if cd.confirm ≠ "1" then processCandleData symbol channel nowIso rest
    else if cd.vol ≤ 0 then processCandleData symbol channel nowIso rest
    else if cd.c ≤ 0 then processCandleData symbol channel nowIso rest
    else mkEnvelope symbol channel nowIso cd :: processCandleData symbol channel nowIso rest

/-- `_convert_timeframe_to_okx_format`: the `mapping.get(timeframe,
timeframe)` lookup. -/
def convertTimeframeToOkxFormat (tf : String) : String :=
  if tf = "1m" then "1m"
  else if tf = "5m" then "5m"
  else if tf = "15m" then "15m"
  else if tf = "1h" then "1H"
  else if tf = "4h" then "4H"
  else if tf = "1d" then "1D"
  else tf

/-- The subscription channel name `f"candle{okx_timeframe}"` built in
`subscribe_channels`. -/
def channelForTimeframe (tf : String) : String :=
  "candle" ++ convertTimeframeToOkxFormat tf

/-! ### Store model

Logical schema (`trading.candlesticks`): surrogate serial `id`,
`symbol`, `timeframe`, `timestamp_ms`, `open_price`, `high_price`,
`low_price`, `close_price`, `volume`, `created_at`, with the composite
uniqueness constraint on `(symbol, timeframe, timestamp_ms)`. -/

structure CRow where
  id : Nat
  symbol : String
  timeframe : String
  timestampMs : Int
  openPrice : Rat
  highPrice : Rat
  lowPrice : Rat
  closePrice : Rat
  volume : Rat
  createdAt : Int
deriving DecidableEq, Repr

/-- An incoming record: one tuple of `insert_data` in
`BatchProcessor.process_batch` (lines 264-273). -/
structure CRec where
  symbol : String
  timeframe : String
  timestampMs : Int
  openPrice : Rat
  highPrice : Rat
  lowPrice : Rat
  closePrice : Rat
  volume : Rat
deriving DecidableEq, Repr

def CKey := String × String × Int
deriving instance DecidableEq for CKey

def CVals := Rat × Rat × Rat × Rat × Rat
deriving instance DecidableEq for CVals

def rowKey (row : CRow) : CKey := (row.symbol, row.timeframe, row.timestampMs)

def recKey (r : CRec) : CKey := (r.symbol, r.timeframe, r.timestampMs)

def rowVals (row : CRow) : CVals :=
  (row.openPrice, row.highPrice, row.lowPrice, row.closePrice, row.volume)

def recVals (r : CRec) : CVals :=
  (r.openPrice, r.highPrice, r.lowPrice, r.closePrice, r.volume)

/-- Whether a row with the composite key is present (the condition under
which `ON CONFLICT` fires instead of a plain insert). -/
def keyPresent (t : List CRow) (k : CKey) : Bool :=
  t.any fun row => decide (rowKey row = k)

/-- Largest surrogate id in the table; fresh serial ids continue above it. -/
def maxId (t : List CRow) : Nat :=
  t.foldr (fun row m => max row.id m) 0

/-- The `DO UPDATE SET open_price = EXCLUDED.open_price, ...,
volume = EXCLUDED.volume, created_at = CURRENT_TIMESTAMP` clause: value
columns and `created_at` are overwritten, the key columns and the
surrogate id are untouched. -/
def setVals (row : CRow) (r : CRec) (now : Int) : CRow :=
  ⟨row.id, row.symbol, row.timeframe, row.timestampMs,
    r.openPrice, r.highPrice, r.lowPrice, r.closePrice, r.volume, now⟩

def newRow (id : Nat) (r : CRec) (now : Int) : CRow :=
  ⟨id, r.symbol, r.timeframe, r.timestampMs,
    r.openPrice, r.highPrice, r.lowPrice, r.closePrice, r.volume, now⟩

/-- The per-row effect of one conflicting upsert statement: rows whose
composite key equals the record's key receive the record's value
columns, all other rows are untouched. -/
def touchOne (r : CRec) (now : Int) (row : CRow) : CRow :=
  if rowKey row = recKey r then setVals row r now else row

/-- One `INSERT ... ON CONFLICT (symbol, timeframe, timestamp_ms)
DO UPDATE` statement of the persister's `executemany`
(`batch_processor.py` lines 283-299). -/
def upsertRow (t : List CRow) (r : CRec) (now : Int) : List CRow :=
  if keyPresent t (recKey r) then t.map (touchOne r now)
  else t ++ [newRow (maxId t + 1) r now]

/-- The whole `executemany` over the prepared batch: the statements run
sequentially inside one transaction. -/
def applyBatch (t : List CRow) (batch : List CRec) (now : Int) : List CRow :=
  batch.foldl (fun acc r => upsertRow acc r now) t

/-- The last record of the batch carrying a given key, if any
(later records win). -/
def lastVal : List CRec → CKey → Option CRec
  | [], _ => none
  | r :: s, k =>
    match lastVal s k with
    | some x => some x
    | none => if recKey r = k then some r else none

/-- The effect of a batch on one already-present row: its value columns
become those of the last record with its key, `created_at` is refreshed;
rows whose key the batch never mentions are untouched. -/
def touch (s : List CRec) (now : Int) (row : CRow) : CRow :=
  match lastVal s (rowKey row) with
  | some r => setVals row r now
  | none => row

/-- The composite uniqueness constraint
`unique(symbol, timeframe, timestamp_ms)`. -/
def uniqueKeys (t : List CRow) : Prop :=
  List.Pairwise (fun a b => rowKey a ≠ rowKey b) t

/-! ### Persister

From `batch_processor.py`: `process_batch` (lines 204-309) and
`send_to_dlq` (lines 322-341).

The preparation loop of `process_batch` (lines 219-277) converts each
queue envelope to an `insert_data` tuple, but it also performs the
symbol/timeframe lookups (`SELECT id FROM symbols`, `SELECT id FROM
timeframes`, and the corresponding inserts) *inside the same
transaction*, and each item is wrapped in a `try/except Exception:
continue`.  On typed envelopes the pure conversion is total, so a
preparation failure can only be a database failure of one of those
lookups.  `dbFailAt = some k` models a transient database failure
striking the `k`-th item's lookup: the exception is swallowed, the
server-side transaction is aborted, every later item's lookup fails
too, and `insert_data` ends up holding exactly the first `k` records.
Two sub-cases follow the code:

* `insert_data` empty (`k = 0`): the `if insert_data:` guard skips the
  `executemany`, and exiting the aborted transaction issues a `COMMIT`
  that the server executes as a silent `ROLLBACK` without raising — the
  outer handler never fires, so the batch reaches neither the table nor
  the DLQ;
* `insert_data` non-empty (`0 < k`): the `executemany` raises inside
  the aborted transaction, the exception propagates to the outer
  handler, the transaction rolls back, and the whole batch is routed to
  the DLQ.

With no preparation failure (`dbFailAt = none`, or an index at or past
the batch length, i.e. the failing statement is never reached),
`execOk` is the outcome of the `executemany`: `true` models a commit,
`false` models `asyncpg.UndefinedTableError` or any other database
exception, in which case the transaction leaves `trading.candlesticks`
unchanged and the whole original batch is handed to `send_to_dlq`. -/

def envToRec (e : Envelope) : CRec :=
  ⟨e.symbol, e.timeframe, e.timestamp,
    e.openPrice, e.highPrice, e.lowPrice, e.closePrice, e.volume⟩

/-- One DLQ item `{**item, "error": error, "failed_at": ...,
"retry_count": item.get("retry_count", 0) + 1}`. -/
def mkDlqItem (e : Envelope) (err failedAt : String) : Envelope :=
  ⟨e.symbol, e.timeframe, e.timestamp,
    e.openPrice, e.highPrice, e.lowPrice, e.closePrice, e.volume,
    e.volumeCurrency, e.confirm, e.receivedAt, e.source,
    some (e.retryCount.getD 0 + 1), some err, some failedAt⟩

/-- `send_to_dlq`: push every item of the batch onto `dead_letter_queue`
with the error context attached. -/
def sendToDlq (dlq batch : List Envelope) (err failedAt : String) : List Envelope :=
  dlq ++ batch.map fun item => mkDlqItem item err failedAt

/-- `process_batch`: empty batches return immediately; otherwise the
preparation loop runs (with the failure semantics of `dbFailAt`
described above), then one transaction upserts every prepared record;
on an `executemany` failure the table is left unchanged and the whole
batch goes to the DLQ.  Returns the new table and the new DLQ
contents. -/
def processBatch (t : List CRow) (dlq batch : List Envelope) (now : Int)
    (err nowIso : String) (dbFailAt : Option Nat) (execOk : Bool) :
    List CRow × List Envelope :=
  if batch = [] then (t, dlq)
  else if dbFailAt.getD batch.length < batch.length then
    -- a preparation lookup failed inside the transaction: insert_data
    -- holds the records prepared before the failure
    if (batch.take (dbFailAt.getD batch.length)).map envToRec = [] then (t, dlq)
    else (t, sendToDlq dlq batch err nowIso)
  else if execOk then (applyBatch t (batch.map envToRec) now, dlq)
  else (t, sendToDlq dlq batch err nowIso)

/-! ### Reconciler: windowed maintenance

From `ccxt_daily_maintenance.py`. -/

/-- `CCXTDailyMaintenance.timeframe_intervals` with the `.get(timeframe,
5)` default used by `detect_data_gaps` and `fill_data_gap`. -/
def timeframeIntervalMinutes (tf : String) : Int :=
  if tf = "1m" then 1
  else if tf = "5m" then 5
  else if tf = "15m" then 15
  else if tf = "1h" then 60
  else if tf = "4h" then 240
  else if tf = "1d" then 1440
  else 5

def intervalMsOf (tf : String) : Int :=
  timeframeIntervalMinutes tf * 60 * 1000

/-- The `WHERE symbol = $1 AND timeframe = $2 AND timestamp_ms >= $3`
window filter shared by `remove_duplicates` and `fix_invalid_data`. -/
def rowInWindow (sym tf : String) (cutoff : Int) (row : CRow) : Prop :=
  row.symbol = sym ∧ row.timeframe = tf ∧ cutoff ≤ row.timestampMs

instance (sym tf : String) (cutoff : Int) (row : CRow) :
    Decidable (rowInWindow sym tf cutoff row) := by
  unfold rowInWindow; infer_instance

/-- The invalid-row predicate of `fix_invalid_data` (lines 397-408):
non-positive prices or volume, or an OHLC ordering violation.  Note that
the SQL checks nothing about `timestamp_ms`. -/
def isInvalidRow (row : CRow) : Prop :=
  row.openPrice ≤ 0 ∨ row.highPrice ≤ 0 ∨ row.lowPrice ≤ 0
    ∨ row.closePrice ≤ 0 ∨ row.volume ≤ 0
    ∨ row.highPrice < row.lowPrice
    ∨ row.highPrice < row.openPrice
    ∨ row.highPrice < row.closePrice
    ∨ row.lowPrice > row.openPrice
    ∨ row.lowPrice > row.closePrice

instance (row : CRow) : Decidable (isInvalidRow row) := by
  unfold isInvalidRow; infer_instance

/-- `fix_invalid_data`: fetch the ids of the invalid rows in the window,
then delete those ids one by one inside a single transaction. -/
def fixInvalidData (t : List CRow) (sym tf : String) (cutoff : Int) : List CRow :=
  let invalidIds :=
    (t.filter fun row => decide (rowInWindow sym tf cutoff row ∧ isInvalidRow row)).map (·.id)
  invalidIds.foldl (fun acc i => acc.filter fun row => decide (row.id ≠ i)) t

/-- The spec's §3 per-row invariant, including the alignment condition
`timestamp_ms ≡ 0 (mod interval_ms(timeframe))`; used to state what the
purge claim asserts about the pass. -/
def specRowInvariantViolated (row : CRow) : Prop :=
  isInvalidRow row ∨ row.timestampMs % intervalMsOf row.timeframe ≠ 0

instance (row : CRow) : Decidable (specRowInvariantViolated row) := by
  unfold specRowInvariantViolated; infer_instance

/-- The `WHERE symbol = $1 AND timeframe = $2 AND timestamp_ms = $3`
condition of the dedup `DELETE` and of its `MIN(id)` subquery. -/
def matchesKey (sym tf : String) (ts : Int) (row : CRow) : Prop :=
  row.symbol = sym ∧ row.timeframe = tf ∧ row.timestampMs = ts

instance (sym tf : String) (ts : Int) (row : CRow) :
    Decidable (matchesKey sym tf ts row) := by
  unfold matchesKey; infer_instance

/-- The SQL aggregate `SELECT MIN(id) ...` over a list of ids. -/
def listMinNat : List Nat → Option Nat
  | [] => none
  | x :: xs =>
    match listMinNat xs with
    | none => some x
    | some y => some (min x y)

/-- `MIN(id)` over the rows with the given composite key
(the subquery of the dedup `DELETE`, which carries no window cutoff). -/
def minIdFor (t : List CRow) (sym tf : String) (ts : Int) : Option Nat :=
  listMinNat ((t.filter fun row => decide (matchesKey sym tf ts row)).map (·.id))

/-- One dedup `DELETE`: remove every row of the key whose id is not the
minimum id of the key's group. -/
def deleteDupRows (acc : List CRow) (sym tf : String) (ts : Int) : List CRow :=
  acc.filter fun row =>
    decide (¬(matchesKey sym tf ts row ∧ minIdFor acc sym tf ts ≠ some row.id))

/-- The `GROUP BY symbol, timeframe, timestamp_ms HAVING COUNT(*) > 1`
query of `remove_duplicates` (lines 351-357), restricted to the window:
the timestamps carrying more than one row. -/
def dupTimestamps (t : List CRow) (sym tf : String) (cutoff : Int) : List Int :=
  let window := t.filter fun row => decide (rowInWindow sym tf cutoff row)
  ((window.map (·.timestampMs)).dedup).filter fun ts =>
    decide (1 < (window.filter fun row => decide (row.timestampMs = ts)).length)

/-- `remove_duplicates`: for each duplicate group, delete all but the
minimum-id row; the deletes run inside a single transaction. -/
def removeDuplicates (t : List CRow) (sym tf : String) (cutoff : Int) : List CRow :=
  (dupTimestamps t sym tf cutoff).foldl (fun acc ts => deleteDupRows acc sym tf ts) t

/-- The gap record built by `detect_data_gaps` (dataclass `DataGap`). -/
structure DataGap where
  symbol : String
  timeframe : String
  startTs : Int
  endTs : Int
  expectedCount : Nat
  missingCount : Int
deriving DecidableEq, Repr

def mkGap (sym tf : String) (gapStart gapEnd intervalMs : Int) (expectedCount : Nat) : DataGap :=
  ⟨sym, tf, gapStart, gapEnd, expectedCount, (gapEnd - gapStart) / intervalMs + 1⟩

/-- The coalescing loop of `detect_data_gaps` (lines 216-246): extend the
current gap while the next missing timestamp is exactly one interval
after its end, otherwise emit the gap and start a new one. -/
def coalesceGaps (sym tf : String) (intervalMs : Int) (expectedCount : Nat)
    (gapStart gapEnd : Int) : List Int → List DataGap
  | [] => [mkGap sym tf gapStart gapEnd intervalMs expectedCount]
  | m :: rest =>
    if m = gapEnd + intervalMs then
      coalesceGaps sym tf intervalMs expectedCount gapStart m rest
    else
      mkGap sym tf gapStart gapEnd intervalMs expectedCount ::
        coalesceGaps sym tf intervalMs expectedCount m m rest

/-- The expected-timestamp generation loop `while current_ts <= end_ts`
(lines 200-204), closed form for a positive interval. -/
def expectedTimestamps (startTs endTs intervalMs : Int) : List Int :=
  if startTs ≤ endTs then
    (List.range (((endTs - startTs) / intervalMs).toNat + 1)).map
      fun (k : Nat) => startTs + (k : Int) * intervalMs
  else []

/-- `missing_timestamps = expected - existing`, sorted ascending
(`expectedTimestamps` is already sorted and duplicate-free for a
positive interval, so filtering preserves Python's `sorted(set ...)`). -/
def missingTimestamps (startTs endTs intervalMs : Int) (existing : List Int) : List Int :=
  (expectedTimestamps startTs endTs intervalMs).filter fun ts => decide (ts ∉ existing)

/-- `detect_data_gaps`, parameterized by the window `[startTs, endTs]`
(the source derives it from the wall clock and `hours_back`) and by the
set of stored timestamps returned by the database query. -/
def detectDataGaps (sym tf : String) (startTs endTs : Int) (existing : List Int) :
    List DataGap :=
  match missingTimestamps startTs endTs (intervalMsOf tf) existing with
  | [] => []
  | m :: rest =>
    coalesceGaps sym tf (intervalMsOf tf)
      (expectedTimestamps startTs endTs (intervalMsOf tf)).length m m rest

/-- One `[ts, o, h, l, c, v]` row of a CCXT `fetch_ohlcv` response. -/
structure FetchedCandle where
  ts : Int
  openPrice : Rat
  highPrice : Rat
  lowPrice : Rat
  closePrice : Rat
  volume : Rat
deriving DecidableEq, Repr

/-- One `INSERT ... ON CONFLICT (symbol, timeframe, timestamp_ms)
DO NOTHING` statement; the boolean is whether the command tag was
`INSERT 0 1` (a fresh row was inserted). -/
def insertDoNothing (t : List CRow) (sym tf : String) (cd : FetchedCandle) (now : Int) :
    List CRow × Bool :=
  if keyPresent t (sym, tf, cd.ts) then (t, false)
  else (t ++ [newRow (maxId t + 1)
    ⟨sym, tf, cd.ts, cd.openPrice, cd.highPrice, cd.lowPrice, cd.closePrice, cd.volume⟩ now],
    true)

/-- `fetch_start = gap.start_ts - interval_ms` (`fill_data_gap`
line 273). -/
def gapFetchSince (gap : DataGap) : Int :=
  gap.startTs - intervalMsOf gap.timeframe

/-- `fill_data_gap`: fetch from the REST oracle with
`since = gap.start_ts - interval_ms` and `limit = 1000`, keep the rows
whose timestamp lies in `[gap.start_ts, gap.end_ts]`, skip rows with
`volume <= 0 or close <= 0`, and insert the rest with `ON CONFLICT DO
NOTHING` inside one transaction.  Returns the table and the inserted
count. -/
def fillDataGap (t : List CRow) (gap : DataGap)
    (fetch : Int → Nat → List FetchedCandle) (now : Int) : List CRow × Nat :=
  if fetch (gapFetchSince gap) 1000 = [] then (t, 0)
  else if (fetch (gapFetchSince gap) 1000).filter (fun cd =>
      decide (gap.startTs ≤ cd.ts ∧ cd.ts ≤ gap.endTs)) = [] then (t, 0)
  else
    ((fetch (gapFetchSince gap) 1000).filter (fun cd =>
        decide (gap.startTs ≤ cd.ts ∧ cd.ts ≤ gap.endTs))).foldl
      (fun acc cd =>
        if cd.volume ≤ 0 ∨ cd.closePrice ≤ 0 then acc
        else
          ((insertDoNothing acc.1 gap.symbol gap.timeframe cd now).1,
            if (insertDoNothing acc.1 gap.symbol gap.timeframe cd now).2 then acc.2 + 1
            else acc.2))
      (t, 0)

/-- `CCXTHistoricalBackfill.insert_candles_batch`
(`ccxt_historical_backfill.py` lines 172-225): validate each fetched
row (`volume <= 0 or close <= 0` skipped) and insert with `ON CONFLICT
DO NOTHING`; returns the table, the inserted count and the duplicate
count. -/
def insertCandlesBatch (t : List CRow) (sym tf : String)
    (ohlcvData : List FetchedCandle) (now : Int) : List CRow × Nat × Nat :=
  if ohlcvData = [] then (t, 0, 0)
  else
    ohlcvData.foldl
      (fun acc cd =>
        if cd.volume ≤ 0 ∨ cd.closePrice ≤ 0 then acc
        else
          ((insertDoNothing acc.1 sym tf cd now).1,
            if (insertDoNothing acc.1 sym tf cd now).2 then (acc.2.1 + 1, acc.2.2)
            else (acc.2.1, acc.2.2 + 1)))
      (t, 0, 0)

/-- What one successful `ON CONFLICT DO NOTHING` insert of a validated
fetched candle writes: the candle passed the `volume <= 0 or close <= 0`
check and the fresh row carries the fetched values under the
`(symbol, timeframe, timestamp)` key. -/
def insertedRow (sym tf : String) (now : Int) (cd : FetchedCandle) (row : CRow) : Prop :=
  0 < cd.volume ∧ 0 < cd.closePrice
    ∧ row.symbol = sym ∧ row.timeframe = tf ∧ row.timestampMs = cd.ts
    ∧ rowVals row = (cd.openPrice, cd.highPrice, cd.lowPrice, cd.closePrice, cd.volume)
    ∧ row.createdAt = now

/-! ## Theorems -/

/-! ### C5: backoff -/

theorem runSleeps_replicate_false (initial maxDelay : Nat) :
    ∀ (n : Nat) (d : Nat), d ≤ maxDelay →
      runSleeps initial maxDelay d (List.replicate n false) =
        (List.range n).map (fun k => min (d * 2 ^ k) maxDelay) := by
  intro n
  induction n with
  | zero => intro d _; simp [runSleeps]
  | succ n ih =>
    intro d hd
    rw [List.replicate_succ, List.range_succ_eq_map]
    simp only [runSleeps, if_neg (Bool.false_ne_true), List.map_cons, List.map_map]
    congr 1
    · simpa using (Nat.min_eq_left hd).symm
    · rw [ih (min (d * 2) maxDelay) (Nat.min_le_right _ _)]
      apply List.map_congr_left
      intro k _
      simp only [Function.comp]
      rcases Nat.le_total (d * 2) maxDelay with h | h
      · rw [Nat.min_eq_left h, Nat.pow_succ]
        ring_nf
      · rw [Nat.min_eq_right h]
        have h1 : maxDelay ≤ maxDelay * 2 ^ k := by
          have : 1 ≤ 2 ^ k := Nat.one_le_two_pow
          calc maxDelay = maxDelay * 1 := (Nat.mul_one _).symm
            _ ≤ maxDelay * 2 ^ k := Nat.mul_le_mul_left _ this
        have h2 : maxDelay ≤ d * 2 ^ (k + 1) := by
          calc maxDelay ≤ d * 2 := h
            _ ≤ d * 2 * 2 ^ k := by
                have : 1 ≤ 2 ^ k := Nat.one_le_two_pow
                calc d * 2 = d * 2 * 1 := (Nat.mul_one _).symm
                  _ ≤ d * 2 * 2 ^ k := Nat.mul_le_mul_left _ this
            _ = d * 2 ^ (k + 1) := by rw [Nat.pow_succ]; ring
        rw [Nat.min_eq_right h1, Nat.min_eq_right h2]

/-- **C5** (backoff monotonicity).  The reconnect delay starts at
`INITIAL_RECONNECT_DELAY = 5`, is doubled after every failed connection
attempt and capped at `MAX_RECONNECT_DELAY = 300`, and is reset to the
initial value on a successful streaming entry.  Five consecutive failed
connects from the initial state produce sleeps `5, 10, 20, 40, 80`; more
generally the sleeps of a run of `n` consecutive failures from delay `d`
are `min (d * 2 ^ k) 300` for `k < n`, hence non-decreasing up to the
cap; and the first sleep after any iteration that reached streaming is
the initial delay `5`. -/
theorem backoff_monotone_reset :
    runSleeps INITIAL_RECONNECT_DELAY MAX_RECONNECT_DELAY INITIAL_RECONNECT_DELAY
        (List.replicate 5 false) = [5, 10, 20, 40, 80]
    ∧ (∀ (n : Nat) (d : Nat), d ≤ MAX_RECONNECT_DELAY →
        runSleeps INITIAL_RECONNECT_DELAY MAX_RECONNECT_DELAY d (List.replicate n false) =
          (List.range n).map (fun k => min (d * 2 ^ k) MAX_RECONNECT_DELAY))
    ∧ (∀ (n : Nat) (d : Nat), d ≤ MAX_RECONNECT_DELAY →
        List.Pairwise (· ≤ ·)
          (runSleeps INITIAL_RECONNECT_DELAY MAX_RECONNECT_DELAY d (List.replicate n false)))
    ∧ (∀ (d : Nat) (rest : List Bool),
        runSleeps INITIAL_RECONNECT_DELAY MAX_RECONNECT_DELAY d (true :: rest) =
          INITIAL_RECONNECT_DELAY ::
            runSleeps INITIAL_RECONNECT_DELAY MAX_RECONNECT_DELAY
              (min (INITIAL_RECONNECT_DELAY * 2) MAX_RECONNECT_DELAY) rest) := by
  refine ⟨by decide, runSleeps_replicate_false _ _, ?_, ?_⟩
  · intro n d hd
    rw [runSleeps_replicate_false _ _ n d hd]
    have hmono : Monotone (fun k => min (d * 2 ^ k) MAX_RECONNECT_DELAY) := by
      intro a b hab
      exact min_le_min
        (Nat.mul_le_mul_left _ (Nat.pow_le_pow_right (by norm_num) hab)) le_rfl
    exact (List.pairwise_lt_range n).map _ (fun a b h => hmono (Nat.le_of_lt h))
  · intro d rest
    rfl

/-- Witness for `backoff_monotone_reset`: the concrete five-failure trace,
with the hypotheses discharged at `n = 5`, `d = 5`. -/
theorem backoff_monotone_reset_witness :
    (5 : Nat) ≤ MAX_RECONNECT_DELAY ∧
      runSleeps INITIAL_RECONNECT_DELAY MAX_RECONNECT_DELAY 5 (List.replicate 5 false) =
        (List.range 5).map (fun k => min (5 * 2 ^ k) MAX_RECONNECT_DELAY) :=
  ⟨by decide, backoff_monotone_reset.2.1 5 5 (by decide)⟩

/-! ### C2: unconfirmed suppression and ingress validation -/

theorem processCandleData_eq_filter_map (symbol channel nowIso : String) :
    ∀ candles : List RawCandle,
      processCandleData symbol channel nowIso candles =
        (candles.filter fun cd =>
          decide (cd.confirm = "1" ∧ 0 < cd.vol ∧ 0 < cd.c)).map
          (mkEnvelope symbol channel nowIso) := by
  intro candles
  induction candles with
  | nil => rfl
  | cons cd rest ih =>
    simp only [processCandleData, List.filter_cons]
    by_cases h1 : cd.confirm = "1"
    · rw [if_neg (not_not_intro h1)]
      by_cases h2 : (0 : Rat) < cd.vol
      · rw [if_neg (not_le.mpr h2)]
        by_cases h3 : (0 : Rat) < cd.c
        · rw [if_neg (not_le.mpr h3), if_pos (decide_eq_true ⟨h1, h2, h3⟩),
            List.map_cons, ih]
        · have hcond : ¬(decide (cd.confirm = "1" ∧ 0 < cd.vol ∧ 0 < cd.c) = true) := by
            intro hd; exact h3 (of_decide_eq_true hd).2.2
          rw [if_pos (not_lt.mp h3), if_neg hcond, ih]
      · have hcond : ¬(decide (cd.confirm = "1" ∧ 0 < cd.vol ∧ 0 < cd.c) = true) := by
          intro hd; exact h2 (of_decide_eq_true hd).2.1
        rw [if_pos (not_lt.mp h2), if_neg hcond, ih]
    · have hcond : ¬(decide (cd.confirm = "1" ∧ 0 < cd.vol ∧ 0 < cd.c) = true) := by
        intro hd; exact h1 (of_decide_eq_true hd).1
      rw [if_pos h1, if_neg hcond, ih]

/-- **C2** (unconfirmed suppression and ingress validation).  For every
inbound stream data event, the collector enqueues exactly the envelopes
of the candles whose `confirm` flag equals `"1"`, whose volume is
strictly positive and whose close is strictly positive, in order; every
candle failing any of these checks is skipped, and every enqueued
envelope comes from a confirmed, validated candle, so no unconfirmed
candle is ever handed to the persister. -/
theorem unconfirmed_suppression (symbol channel nowIso : String) (candles : List RawCandle) :
    processCandleData symbol channel nowIso candles =
      (candles.filter fun cd =>
        decide (cd.confirm = "1" ∧ 0 < cd.vol ∧ 0 < cd.c)).map
        (mkEnvelope symbol channel nowIso)
    ∧ ∀ e ∈ processCandleData symbol channel nowIso candles,
        ∃ cd ∈ candles,
          cd.confirm = "1" ∧ 0 < cd.vol ∧ 0 < cd.c
            ∧ e = mkEnvelope symbol channel nowIso cd := by
  refine ⟨processCandleData_eq_filter_map symbol channel nowIso candles, ?_⟩
  intro e he
  rw [processCandleData_eq_filter_map] at he
  obtain ⟨cd, hcd, rfl⟩ := List.mem_map.mp he
  obtain ⟨hmem, hvalid⟩ := List.mem_filter.mp hcd
  have hv := of_decide_eq_true hvalid
  exact ⟨cd, hmem, hv.1, hv.2.1, hv.2.2, rfl⟩

/-- Witness for `unconfirmed_suppression`: the membership hypothesis of
the second conjunct discharged at a concrete confirmed candle. -/
theorem unconfirmed_suppression_witness :
    ∃ cd ∈ ([⟨1700000000000, 1, 2, 1, 2, 3, 4, 5, "1"⟩] : List RawCandle),
      cd.confirm = "1" ∧ 0 < cd.vol ∧ 0 < cd.c
        ∧ mkEnvelope "BTC-USDT-SWAP" "candle1m" "t0" ⟨1700000000000, 1, 2, 1, 2, 3, 4, 5, "1"⟩
          = mkEnvelope "BTC-USDT-SWAP" "candle1m" "t0" cd :=
  (unconfirmed_suppression "BTC-USDT-SWAP" "candle1m" "t0"
      [⟨1700000000000, 1, 2, 1, 2, 3, 4, 5, "1"⟩]).2
    (mkEnvelope "BTC-USDT-SWAP" "candle1m" "t0" ⟨1700000000000, 1, 2, 1, 2, 3, 4, 5, "1"⟩)
    (by decide)

/-! ### C3: timeframe rendering -/

theorem mem_processCandleData_timeframe (symbol channel nowIso : String) :
    ∀ (candles : List RawCandle), ∀ e ∈ processCandleData symbol channel nowIso candles,
      e.timeframe = pyReplace channel "candle" "" := by
  intro candles
  induction candles with
  | nil => intro e he; cases he
  | cons cd rest ih =>
    intro e he
    by_cases h1 : cd.confirm ≠ "1"
    · exact ih e (by simpa [processCandleData, if_pos h1] using he)
    · by_cases h2 : cd.vol ≤ 0
      · exact ih e (by simpa [processCandleData, if_neg h1, if_pos h2] using he)
      · by_cases h3 : cd.c ≤ 0
        · exact ih e (by simpa [processCandleData, if_neg h1, if_neg h2, if_pos h3] using he)
        · rw [processCandleData, if_neg h1, if_neg h2, if_neg h3] at he
          rcases List.mem_cons.mp he with rfl | hmem
          · rfl
          · exact ih e hmem

/-- **C3 counterexample**.  The claim asserts that the timeframe field
stored in every queue envelope is the canonical lower-case form.  For
the canonical timeframe `1h` the subscription channel is `candle1H`, and
the envelope a confirmed candle receives on that channel stores the
timeframe `"1H"` — the rendered venue form — which differs from the
canonical `"1h"`. -/
theorem timeframe_rendering_counterexample :
    channelForTimeframe "1h" = "candle1H"
    ∧ (processCandleData "BTC-USDT-SWAP" (channelForTimeframe "1h") "t0"
        [⟨1700000000000, 1, 2, 1, 2, 3, 4, 5, "1"⟩]).map Envelope.timeframe = ["1H"]
    ∧ ("1H" : String) ≠ "1h" := by
  refine ⟨by decide, ?_, by decide⟩
  decide

/-- **C3 amended** (timeframe rendering).  For every requested canonical
timeframe in the closed set, the subscription channel name is `"candle"`
followed by the rendered form under the mapping `1m→1m, 5m→5m, 15m→15m,
1h→1H, 4h→4H, 1d→1D`; the timeframe field stored in every queue envelope
produced under that channel is the *rendered* form (the channel name
with the `candle` prefix removed), not the canonical lower-case form. -/
theorem timeframe_rendering_amended :
    (["1m", "5m", "15m", "1h", "4h", "1d"].map convertTimeframeToOkxFormat
      = ["1m", "5m", "15m", "1H", "4H", "1D"])
    ∧ (["1m", "5m", "15m", "1h", "4h", "1d"].map channelForTimeframe
      = ["candle1m", "candle5m", "candle15m", "candle1H", "candle4H", "candle1D"])
    ∧ ∀ tf ∈ (["1m", "5m", "15m", "1h", "4h", "1d"] : List String),
        ∀ symbol nowIso : String, ∀ candles : List RawCandle,
          ∀ e ∈ processCandleData symbol (channelForTimeframe tf) nowIso candles,
            e.timeframe = convertTimeframeToOkxFormat tf := by
  refine ⟨by decide, by decide, ?_⟩
  intro tf htf symbol nowIso candles e he
  rw [mem_processCandleData_timeframe symbol (channelForTimeframe tf) nowIso candles e he]
  fin_cases htf <;> decide

/-- Witness for `timeframe_rendering_amended`: the membership hypotheses
discharged at the timeframe `1h` and a concrete confirmed candle. -/
theorem timeframe_rendering_amended_witness :
    (mkEnvelope "BTC-USDT-SWAP" (channelForTimeframe "1h") "t0"
        ⟨1700000000000, 1, 2, 1, 2, 3, 4, 5, "1"⟩).timeframe
      = convertTimeframeToOkxFormat "1h" :=
  timeframe_rendering_amended.2.2 "1h" (by decide) "BTC-USDT-SWAP" "t0"
    [⟨1700000000000, 1, 2, 1, 2, 3, 4, 5, "1"⟩]
    (mkEnvelope "BTC-USDT-SWAP" (channelForTimeframe "1h") "t0"
      ⟨1700000000000, 1, 2, 1, 2, 3, 4, 5, "1"⟩)
    (by decide)

/-! ### Store lemmas shared by C1 and C4 -/

theorem rowKey_setVals (row : CRow) (r : CRec) (now : Int) :
    rowKey (setVals row r now) = rowKey row := rfl

theorem setVals_setVals (row : CRow) (r1 r2 : CRec) (n1 n2 : Int) :
    setVals (setVals row r1 n1) r2 n2 = setVals row r2 n2 := rfl

theorem rowKey_touchOne (r : CRec) (now : Int) (row : CRow) :
    rowKey (touchOne r now row) = rowKey row := by
  unfold touchOne
  by_cases h : rowKey row = recKey r
  · rw [if_pos h, rowKey_setVals]
  · rw [if_neg h]

theorem rowKey_touch (s : List CRec) (now : Int) (row : CRow) :
    rowKey (touch s now row) = rowKey row := by
  unfold touch
  cases lastVal s (rowKey row) with
  | none => rfl
  | some r => rw [rowKey_setVals]

theorem rowHdr_touch (s : List CRec) (now : Int) (row : CRow) :
    (touch s now row).id = row.id ∧ rowKey (touch s now row) = rowKey row := by
  refine ⟨?_, rowKey_touch s now row⟩
  unfold touch
  cases lastVal s (rowKey row) with
  | none => rfl
  | some r => rfl

theorem keyPresent_iff (t : List CRow) (k : CKey) :
    keyPresent t k = true ↔ ∃ row ∈ t, rowKey row = k := by
  simp [keyPresent, List.any_eq_true]

theorem keyPresent_false_iff (t : List CRow) (k : CKey) :
    keyPresent t k = false ↔ ∀ row ∈ t, rowKey row ≠ k := by
  rw [← Bool.not_eq_true, keyPresent_iff]
  simp

theorem lastVal_cons_of_some {s : List CRec} {k : CKey} {x : CRec} (r : CRec)
    (h : lastVal s k = some x) : lastVal (r :: s) k = some x := by
  simp [lastVal, h]

theorem lastVal_cons_of_none {s : List CRec} {k : CKey} (r : CRec)
    (h : lastVal s k = none) :
    lastVal (r :: s) k = if recKey r = k then some r else none := by
  simp [lastVal, h]

theorem lastVal_some_mem_key :
    ∀ {s : List CRec} {k : CKey} {r : CRec}, lastVal s k = some r → r ∈ s ∧ recKey r = k := by
  intro s
  induction s with
  | nil => intro k r h; cases h
  | cons a s ih =>
    intro k r h
    cases hlv : lastVal s k with
    | some x =>
      rw [lastVal_cons_of_some a hlv] at h
      cases h
      exact ⟨List.mem_cons_of_mem a (ih hlv).1, (ih hlv).2⟩
    | none =>
      rw [lastVal_cons_of_none a hlv] at h
      by_cases hk : recKey a = k
      · rw [if_pos hk] at h
        cases h
        exact ⟨List.mem_cons_self a s, hk⟩
      · rw [if_neg hk] at h
        cases h

theorem lastVal_isSome_of_mem :
    ∀ {s : List CRec} {r : CRec}, r ∈ s → ∃ x, lastVal s (recKey r) = some x := by
  intro s
  induction s with
  | nil => intro r h; cases h
  | cons a s ih =>
    intro r h
    rcases List.mem_cons.mp h with rfl | hmem
    · cases hlv : lastVal s (recKey r) with
      | some x => exact ⟨x, lastVal_cons_of_some r hlv⟩
      | none => exact ⟨r, by rw [lastVal_cons_of_none r hlv, if_pos rfl]⟩
    · obtain ⟨x, hx⟩ := ih hmem
      exact ⟨x, lastVal_cons_of_some a hx⟩

theorem touch_nil (now : Int) (row : CRow) : touch [] now row = row := rfl

theorem touch_touchOne (r : CRec) (s : List CRec) (now : Int) (row : CRow) :
    touch s now (touchOne r now row) = touch (r :: s) now row := by
  unfold touch
  rw [rowKey_touchOne]
  cases hlv : lastVal s (rowKey row) with
  | some x =>
    rw [lastVal_cons_of_some r hlv]
    unfold touchOne
    by_cases h : rowKey row = recKey r
    · rw [if_pos h]; rfl
    · rw [if_neg h]
  | none =>
    rw [lastVal_cons_of_none r hlv]
    unfold touchOne
    by_cases h : rowKey row = recKey r
    · rw [if_pos h, if_pos h.symm]
    · rw [if_neg h, if_neg (fun hk => h hk.symm)]

theorem touch_cons_of_ne (r : CRec) (s : List CRec) (now : Int) (row : CRow)
    (h : rowKey row ≠ recKey r) : touch (r :: s) now row = touch s now row := by
  unfold touch
  cases hlv : lastVal s (rowKey row) with
  | some x => rw [lastVal_cons_of_some r hlv]
  | none => rw [lastVal_cons_of_none r hlv, if_neg (fun hk => h hk.symm)]

theorem rowKey_newRow (i : Nat) (r : CRec) (now : Int) :
    rowKey (newRow i r now) = recKey r := rfl

theorem rowVals_newRow (i : Nat) (r : CRec) (now : Int) :
    rowVals (newRow i r now) = recVals r := rfl

theorem rowVals_setVals (row : CRow) (r : CRec) (now : Int) :
    rowVals (setVals row r now) = recVals r := rfl

theorem touch_eq_of_none {s : List CRec} {now : Int} {row : CRow}
    (h : lastVal s (rowKey row) = none) : touch s now row = row := by
  unfold touch
  rw [h]

theorem touch_eq_of_some {s : List CRec} {now : Int} {row : CRow} {x : CRec}
    (h : lastVal s (rowKey row) = some x) : touch s now row = setVals row x now := by
  unfold touch
  rw [h]

theorem upsertRow_present {t : List CRow} {r : CRec} (now : Int)
    (h : keyPresent t (recKey r) = true) :
    upsertRow t r now = t.map (touchOne r now) := by
  unfold upsertRow
  rw [if_pos h]

theorem upsertRow_absent {t : List CRow} {r : CRec} (now : Int)
    (h : keyPresent t (recKey r) = false) :
    upsertRow t r now = t ++ [newRow (maxId t + 1) r now] := by
  unfold upsertRow
  rw [if_neg (by simp [h])]

/-- Characterization of a whole-batch upsert: the existing rows are
transformed pointwise by `touch` (their value columns become those of
the last record with their key, if any), and a block of fresh rows is
appended, one per key of the batch that was absent from the table, each
carrying the values of the last record with its key. -/
theorem applyBatch_char (now : Int) :
    ∀ (s : List CRec) (t : List CRow),
      ∃ ap : List CRow,
        applyBatch t s now = t.map (touch s now) ++ ap
        ∧ (∀ row ∈ ap,
            rowKey row ∉ t.map rowKey
            ∧ ∃ r : CRec, lastVal s (rowKey row) = some r
                ∧ rowVals row = recVals r ∧ row.createdAt = now)
        ∧ List.Pairwise (fun a b => rowKey a ≠ rowKey b) ap
        ∧ (∀ k : CKey, (∃ r ∈ s, recKey r = k) → k ∉ t.map rowKey →
            ∃ row ∈ ap, rowKey row = k) := by
  intro s
  induction s with
  | nil =>
    intro t
    refine ⟨[], ?_, ?_, List.Pairwise.nil, ?_⟩
    · show applyBatch t [] now = t.map (touch [] now) ++ []
      rw [List.append_nil]
      show t = t.map (touch [] now)
      induction t with
      | nil => rfl
      | cons a t iht =>
        rw [List.map_cons, touch_nil]
        exact congrArg (a :: ·) iht
    · intro row h; cases h
    · intro k hk _
      obtain ⟨r, hr, _⟩ := hk
      cases hr
  | cons r s ih =>
    intro t
    have hstep : applyBatch t (r :: s) now = applyBatch (upsertRow t r now) s now := rfl
    obtain ⟨ap, heq, hprops, hpw, hcomp⟩ := ih (upsertRow t r now)
    cases hkp : keyPresent t (recKey r) with
    | true =>
      have ht' : upsertRow t r now = t.map (touchOne r now) := upsertRow_present now hkp
      have hkeys : (t.map (touchOne r now)).map rowKey = t.map rowKey := by
        rw [List.map_map]
        exact List.map_congr_left (fun row _ => rowKey_touchOne r now row)
      refine ⟨ap, ?_, ?_, hpw, ?_⟩
      · have hmapt : t.map (touch s now ∘ touchOne r now) = t.map (touch (r :: s) now) := by
          apply List.map_congr_left
          intro row _
          exact touch_touchOne r s now row
        rw [hstep, heq, ht', List.map_map, hmapt]
      · intro row hrow
        obtain ⟨hnotin, x, hx, hvals, hcreated⟩ := hprops row hrow
        rw [ht', hkeys] at hnotin
        exact ⟨hnotin, x, lastVal_cons_of_some r hx, hvals, hcreated⟩
      · intro k hk hkt
        obtain ⟨r2, hr2, hkey⟩ := hk
        rcases List.mem_cons.mp hr2 with rfl | hmem
        · exfalso
          obtain ⟨row, hrow, hrk⟩ := (keyPresent_iff t (recKey r2)).mp hkp
          exact hkt (hkey ▸ List.mem_map.mpr ⟨row, hrow, hrk⟩)
        · refine hcomp k ⟨r2, hmem, hkey⟩ ?_
          rw [ht', hkeys]
          exact hkt
    | false =>
      have ht' : upsertRow t r now = t ++ [newRow (maxId t + 1) r now] :=
        upsertRow_absent now hkp
      have habs : ∀ row ∈ t, rowKey row ≠ recKey r := (keyPresent_false_iff t (recKey r)).mp hkp
      have hmapextra : (t ++ [newRow (maxId t + 1) r now]).map rowKey
          = t.map rowKey ++ [recKey r] := by
        rw [List.map_append]
        rfl
      refine ⟨touch s now (newRow (maxId t + 1) r now) :: ap, ?_, ?_, ?_, ?_⟩
      · have hmapt : t.map (touch s now) = t.map (touch (r :: s) now) := by
          apply List.map_congr_left
          intro row hrow
          exact (touch_cons_of_ne r s now row (habs row hrow)).symm
        rw [hstep, heq, ht', List.map_append, hmapt, List.append_assoc]
        rfl
      · intro row hrow
        rcases List.mem_cons.mp hrow with rfl | hmem
        · have hkeyrow : rowKey (touch s now (newRow (maxId t + 1) r now)) = recKey r := by
            rw [rowKey_touch, rowKey_newRow]
          refine ⟨?_, ?_⟩
          · rw [hkeyrow]
            intro hin
            obtain ⟨row0, hrow0, hrk0⟩ := List.mem_map.mp hin
            exact habs row0 hrow0 hrk0
          · rw [hkeyrow]
            cases hlv : lastVal s (rowKey (newRow (maxId t + 1) r now)) with
            | some x =>
              rw [touch_eq_of_some hlv]
              have hlv2 : lastVal s (recKey r) = some x := by
                rw [← rowKey_newRow (maxId t + 1) r now]
                exact hlv
              exact ⟨x, lastVal_cons_of_some r hlv2, rowVals_setVals _ _ _, rfl⟩
            | none =>
              rw [touch_eq_of_none hlv]
              have hlv2 : lastVal s (recKey r) = none := by
                rw [← rowKey_newRow (maxId t + 1) r now]
                exact hlv
              refine ⟨r, ?_, rowVals_newRow _ _ _, rfl⟩
              rw [lastVal_cons_of_none r hlv2, if_pos rfl]
        · obtain ⟨hnotin, x, hx, hvals, hcreated⟩ := hprops row hmem
          rw [ht', hmapextra] at hnotin
          refine ⟨?_, x, lastVal_cons_of_some r hx, hvals, hcreated⟩
          intro hin
          exact hnotin (List.mem_append_left _ hin)
      · rw [List.pairwise_cons]
        refine ⟨?_, hpw⟩
        intro b hb
        obtain ⟨hnotin, _⟩ := hprops b hb
        rw [ht', hmapextra] at hnotin
        rw [rowKey_touch, rowKey_newRow]
        intro hcontra
        exact hnotin (List.mem_append_right _ (by rw [← hcontra]; exact List.mem_singleton_self _))
      · intro k hk hkt
        obtain ⟨r2, hr2, hkey⟩ := hk
        by_cases hkr : k = recKey r
        · refine ⟨touch s now (newRow (maxId t + 1) r now), List.mem_cons_self _ _, ?_⟩
          rw [rowKey_touch, rowKey_newRow, hkr]
        · have hmem : r2 ∈ s := by
            rcases List.mem_cons.mp hr2 with rfl | hmem
            · exact absurd hkey.symm hkr
            · exact hmem
          obtain ⟨row, hrow, hrk⟩ := hcomp k ⟨r2, hmem, hkey⟩ (by
            rw [ht', hmapextra]
            intro hin
            rcases List.mem_append.mp hin with hin1 | hin2
            · exact hkt hin1
            · exact hkr (List.mem_singleton.mp hin2))
          exact ⟨row, List.mem_cons_of_mem _ hrow, hrk⟩

theorem applyBatch_last_applied (t : List CRow) (s : List CRec) (now : Int) :
    ∀ row ∈ applyBatch t s now, ∀ r : CRec,
      lastVal s (rowKey row) = some r → rowVals row = recVals r ∧ row.createdAt = now := by
  obtain ⟨ap, heq, hprops, _, _⟩ := applyBatch_char now s t
  intro row hrow r hlv
  rw [heq] at hrow
  rcases List.mem_append.mp hrow with hmem | hmem
  · obtain ⟨row0, hrow0, rfl⟩ := List.mem_map.mp hmem
    rw [rowKey_touch] at hlv
    rw [touch_eq_of_some hlv]
    exact ⟨rowVals_setVals _ _ _, rfl⟩
  · obtain ⟨_, x, hx, hvals, hcreated⟩ := hprops row hmem
    rw [hx] at hlv
    cases hlv
    exact ⟨hvals, hcreated⟩

theorem mem_keys_applyBatch (t : List CRow) (s : List CRec) (now : Int) {k : CKey} {x : CRec}
    (hlv : lastVal s k = some x) : k ∈ (applyBatch t s now).map rowKey := by
  obtain ⟨ap, heq, _, _, hcomp⟩ := applyBatch_char now s t
  by_cases hkt : k ∈ t.map rowKey
  · obtain ⟨row0, hrow0, rfl⟩ := List.mem_map.mp hkt
    rw [heq]
    exact List.mem_map.mpr ⟨touch s now row0,
      List.mem_append_left _ (List.mem_map.mpr ⟨row0, hrow0, rfl⟩), rowKey_touch _ _ _⟩
  · have hks : ∃ r ∈ s, recKey r = k := by
      obtain ⟨hmem, hkey⟩ := lastVal_some_mem_key hlv
      exact ⟨x, hmem, hkey⟩
    obtain ⟨row, hrow, hrk⟩ := hcomp k hks hkt
    rw [heq]
    exact List.mem_map.mpr ⟨row, List.mem_append_right _ hrow, hrk⟩

/-- Replaying a batch over a table that has already absorbed it only
re-applies in-place updates: nothing is appended. -/
theorem applyBatch_replay (t : List CRow) (s : List CRec) (now now2 : Int) :
    applyBatch (applyBatch t s now) s now2 = (applyBatch t s now).map (touch s now2) := by
  obtain ⟨ap2, heq2, hprops2, _, _⟩ := applyBatch_char now2 s (applyBatch t s now)
  have hap2 : ap2 = [] := by
    rw [List.eq_nil_iff_forall_not_mem]
    intro row hrow
    obtain ⟨hnotin, x, hx, _, _⟩ := hprops2 row hrow
    exact hnotin (mem_keys_applyBatch t s now hx)
  rw [heq2, hap2, List.append_nil]

theorem map_touch_eq_self {t2 : List CRow} {s : List CRec} {now : Int}
    (hfix : ∀ row ∈ t2, touch s now row = row) : t2.map (touch s now) = t2 := by
  induction t2 with
  | nil => rfl
  | cons a t2 ih =>
    rw [List.map_cons, hfix a (List.mem_cons_self a t2),
      ih (fun row hrow => hfix row (List.mem_cons_of_mem a hrow))]

theorem setVals_eq_self {row : CRow} {r : CRec} {now : Int}
    (hv : rowVals row = recVals r) (hc : row.createdAt = now) : setVals row r now = row := by
  cases row with
  | mk i sy tf ts po ph pl pc pv ca =>
    cases r with
    | mk rsy rtf rts ro rh rl rc rv =>
      simp only [rowVals, recVals, Prod.mk.injEq] at hv
      simp only at hc
      obtain ⟨rfl, rfl, rfl, rfl, rfl⟩ := hv
      subst hc
      rfl

theorem uniqueKeys_applyBatch (t : List CRow) (s : List CRec) (now : Int)
    (hU : uniqueKeys t) : uniqueKeys (applyBatch t s now) := by
  obtain ⟨ap, heq, hprops, hpw, _⟩ := applyBatch_char now s t
  unfold uniqueKeys at *
  rw [heq, List.pairwise_append]
  refine ⟨?_, hpw, ?_⟩
  · refine List.Pairwise.map _ ?_ hU
    intro a b hab
    rw [rowKey_touch, rowKey_touch]
    exact hab
  · intro a ha b hb
    obtain ⟨row0, hrow0, rfl⟩ := List.mem_map.mp ha
    obtain ⟨hnotin, _⟩ := hprops b hb
    rw [rowKey_touch]
    intro hcontra
    exact hnotin (hcontra ▸ List.mem_map.mpr ⟨row0, hrow0, rfl⟩)

/-- **C1** (idempotent ingest).  For every table satisfying the composite
uniqueness constraint and every finite sequence of candle records,
persisting the sequence once and then replaying it any number of times
through the persister's batch upsert yields identical table contents:
the replays change nothing, the resulting table has no duplicate
`(symbol, timeframe, timestamp_ms)` rows, and every row whose key the
sequence mentions carries the open/high/low/close/volume values of the
last applied record for that key. -/
theorem idempotent_ingest (t : List CRow) (s : List CRec) (now : Int) (hU : uniqueKeys t) :
    (∀ n : Nat, (fun u => applyBatch u s now)^[n] (applyBatch t s now) = applyBatch t s now)
    ∧ uniqueKeys (applyBatch t s now)
    ∧ (∀ row ∈ applyBatch t s now, ∀ r : CRec,
        lastVal s (rowKey row) = some r → rowVals row = recVals r) := by
  have hreplay : applyBatch (applyBatch t s now) s now = applyBatch t s now := by
    rw [applyBatch_replay]
    apply map_touch_eq_self
    intro row hrow
    cases hlv : lastVal s (rowKey row) with
    | none => exact touch_eq_of_none hlv
    | some r =>
      obtain ⟨hv, hc⟩ := applyBatch_last_applied t s now row hrow r hlv
      rw [touch_eq_of_some hlv]
      exact setVals_eq_self hv hc
  refine ⟨?_, uniqueKeys_applyBatch t s now hU, ?_⟩
  · intro n
    induction n with
    | zero => rfl
    | succ n ihn => rw [Function.iterate_succ_apply', ihn, hreplay]
  · intro row hrow r hlv
    exact (applyBatch_last_applied t s now row hrow r hlv).1

/-- Witness for `idempotent_ingest`: the uniqueness hypothesis discharged
at the empty table, with a two-record batch that repeats one key. -/
theorem idempotent_ingest_witness :
    uniqueKeys (applyBatch []
      [⟨"BTC-USDT-SWAP", "1h", 1700000000000, 1, 2, 1, 2, 3⟩,
        ⟨"BTC-USDT-SWAP", "1h", 1700000000000, 5, 6, 5, 6, 7⟩] 0) :=
  (idempotent_ingest []
    [⟨"BTC-USDT-SWAP", "1h", 1700000000000, 1, 2, 1, 2, 3⟩,
      ⟨"BTC-USDT-SWAP", "1h", 1700000000000, 5, 6, 5, 6, 7⟩] 0 List.Pairwise.nil).2.1

theorem applyBatch_hdr (t : List CRow) (s : List CRec) (now : Int) :
    ∃ newRows, (applyBatch t s now).map (fun row => (row.id, rowKey row))
      = t.map (fun row => (row.id, rowKey row)) ++ newRows := by
  obtain ⟨ap, heq, _, _, _⟩ := applyBatch_char now s t
  refine ⟨ap.map (fun row => (row.id, rowKey row)), ?_⟩
  rw [heq, List.map_append, List.map_map]
  congr 1
  apply List.map_congr_left
  intro row _
  obtain ⟨h1, h2⟩ := rowHdr_touch s now row
  simp [Function.comp, h1, h2]

/-- **C4 counterexample**.  The claim asserts that for every drained
batch either the transaction commits entirely or every record of the
batch is routed to the dead-letter queue — no record of a failed batch
is silently lost.  A transient database failure striking the first
item's symbol lookup inside the transaction is swallowed by the
per-item handler, aborts the transaction (so `insert_data` ends empty
and the `executemany` is skipped), and the aborted transaction's
`COMMIT` is executed as a silent `ROLLBACK` without raising: at this
concrete input the one-record batch is neither persisted (committing
it would have written a row) nor routed to the DLQ. -/
theorem batch_write_atomicity_counterexample :
    (processBatch [] []
        [mkEnvelope "BTC-USDT-SWAP" "candle1m" "t0" ⟨1700000000000, 1, 2, 1, 2, 3, 4, 5, "1"⟩]
        0 "statement timeout" "t1" (some 0) true).1 = []
    ∧ (processBatch [] []
        [mkEnvelope "BTC-USDT-SWAP" "candle1m" "t0" ⟨1700000000000, 1, 2, 1, 2, 3, 4, 5, "1"⟩]
        0 "statement timeout" "t1" (some 0) true).2 = []
    ∧ applyBatch []
        [envToRec (mkEnvelope "BTC-USDT-SWAP" "candle1m" "t0"
          ⟨1700000000000, 1, 2, 1, 2, 3, 4, 5, "1"⟩)] 0 ≠ [] := by
  decide

/-- **C4 amended** (batch write atomicity).  When the per-item
preparation completes without a database failure, the persister's
single transaction either commits entirely — the table becomes the
batch upsert of the old table, in which only value columns and
`created_at` are overwritten (every existing row keeps its surrogate id
and its `(symbol, timeframe, timestamp_ms)` key, new ids and keys are
only appended), the uniqueness constraint is preserved and the DLQ is
untouched — or fails, in which case the table is unchanged and every
record of the batch is routed to the dead-letter queue.  A
preparation-stage database failure after at least one item was prepared
also routes the whole batch to the DLQ (the `executemany` raises in the
aborted transaction).  But a database failure striking the *first*
item's preparation is swallowed: the table and the DLQ are both left
unchanged, and the batch is silently lost. -/
theorem batch_write_atomicity_amended (t : List CRow) (dlq batch : List Envelope) (now : Int)
    (err nowIso : String) (dbFailAt : Option Nat) (execOk : Bool) (hU : uniqueKeys t) :
    ((dbFailAt = none ∨ ∃ k, dbFailAt = some k ∧ batch.length ≤ k) → execOk = true →
      (processBatch t dlq batch now err nowIso dbFailAt execOk).1
          = applyBatch t (batch.map envToRec) now
      ∧ (processBatch t dlq batch now err nowIso dbFailAt execOk).2 = dlq
      ∧ (∃ newRows,
          ((processBatch t dlq batch now err nowIso dbFailAt execOk).1).map
              (fun row => (row.id, rowKey row))
            = t.map (fun row => (row.id, rowKey row)) ++ newRows)
      ∧ uniqueKeys (processBatch t dlq batch now err nowIso dbFailAt execOk).1)
    ∧ ((dbFailAt = none ∨ ∃ k, dbFailAt = some k ∧ batch.length ≤ k) → execOk = false →
      (processBatch t dlq batch now err nowIso dbFailAt execOk).1 = t
      ∧ (processBatch t dlq batch now err nowIso dbFailAt execOk).2
          = dlq ++ batch.map (fun item => mkDlqItem item err nowIso)
      ∧ ∀ item ∈ batch,
          mkDlqItem item err nowIso
            ∈ (processBatch t dlq batch now err nowIso dbFailAt execOk).2)
    ∧ (∀ k : Nat, dbFailAt = some k → 0 < k → k < batch.length →
      (processBatch t dlq batch now err nowIso dbFailAt execOk).1 = t
      ∧ (processBatch t dlq batch now err nowIso dbFailAt execOk).2
          = dlq ++ batch.map (fun item => mkDlqItem item err nowIso)
      ∧ ∀ item ∈ batch,
          mkDlqItem item err nowIso
            ∈ (processBatch t dlq batch now err nowIso dbFailAt execOk).2)
    ∧ (dbFailAt = some 0 →
      (processBatch t dlq batch now err nowIso dbFailAt execOk).1 = t
      ∧ (processBatch t dlq batch now err nowIso dbFailAt execOk).2 = dlq) := by
  refine ⟨?_, ?_, ?_, ?_⟩
  · intro hprep hexec
    subst hexec
    by_cases hb : batch = []
    · subst hb
      refine ⟨rfl, rfl, ⟨[], (List.append_nil _).symm⟩, hU⟩
    · have hpb : processBatch t dlq batch now err nowIso dbFailAt true
          = (applyBatch t (batch.map envToRec) now, dlq) := by
        unfold processBatch
        rcases hprep with rfl | ⟨k, rfl, hk⟩
        · rw [if_neg hb, Option.getD_none, if_neg (lt_irrefl batch.length), if_pos rfl]
        · rw [if_neg hb, Option.getD_some, if_neg (not_lt.mpr hk), if_pos rfl]
      rw [hpb]
      exact ⟨rfl, rfl, applyBatch_hdr t _ now, uniqueKeys_applyBatch t _ now hU⟩
  · intro hprep hexec
    subst hexec
    by_cases hb : batch = []
    · subst hb
      exact ⟨rfl, (List.append_nil _).symm, fun item hitem => absurd hitem (List.not_mem_nil _)⟩
    · have hpb : processBatch t dlq batch now err nowIso dbFailAt false
          = (t, sendToDlq dlq batch err nowIso) := by
        unfold processBatch
        rcases hprep with rfl | ⟨k, rfl, hk⟩
        · rw [if_neg hb, Option.getD_none, if_neg (lt_irrefl batch.length),
            if_neg Bool.false_ne_true]
        · rw [if_neg hb, Option.getD_some, if_neg (not_lt.mpr hk), if_neg Bool.false_ne_true]
      rw [hpb]
      refine ⟨rfl, rfl, ?_⟩
      intro item hitem
      exact List.mem_append_right _ (List.mem_map.mpr ⟨item, hitem, rfl⟩)
  · intro k hfail hpos hlt
    subst hfail
    have hb : batch ≠ [] := by
      intro hcon
      rw [hcon] at hlt
      exact absurd hlt (by simp)
    have hne : (batch.take k).map envToRec ≠ [] := by
      intro hcon
      rw [List.map_eq_nil_iff] at hcon
      have hlen := congrArg List.length hcon
      rw [List.length_take] at hlen
      have hpos2 := List.length_pos.mpr hb
      simp only [List.length_nil] at hlen
      omega
    have hpb : processBatch t dlq batch now err nowIso (some k) execOk
        = (t, sendToDlq dlq batch err nowIso) := by
      unfold processBatch
      rw [if_neg hb, Option.getD_some, if_pos hlt, if_neg hne]
    rw [hpb]
    refine ⟨rfl, rfl, ?_⟩
    intro item hitem
    exact List.mem_append_right _ (List.mem_map.mpr ⟨item, hitem, rfl⟩)
  · intro hfail
    subst hfail
    by_cases hb : batch = []
    · subst hb
      exact ⟨rfl, rfl⟩
    · have hpb : processBatch t dlq batch now err nowIso (some 0) execOk = (t, dlq) := by
        unfold processBatch
        rw [if_neg hb, Option.getD_some, if_pos (List.length_pos.mpr hb), List.take_zero,
          List.map_nil, if_pos rfl]
      rw [hpb]
      exact ⟨rfl, rfl⟩

/-- Witness for `batch_write_atomicity_amended`: the hypotheses
discharged at the empty table and a one-envelope batch whose
`executemany` fails with no preparation failure, showing the table
untouched. -/
theorem batch_write_atomicity_amended_witness :
    (processBatch [] []
      [mkEnvelope "BTC-USDT-SWAP" "candle1m" "t0" ⟨1700000000000, 1, 2, 1, 2, 3, 4, 5, "1"⟩]
      0 "relation does not exist" "t1" none false).1 = [] :=
  (((batch_write_atomicity_amended [] []
      [mkEnvelope "BTC-USDT-SWAP" "candle1m" "t0" ⟨1700000000000, 1, 2, 1, 2, 3, 4, 5, "1"⟩]
      0 "relation does not exist" "t1" none false List.Pairwise.nil).2.1 (Or.inl rfl)) rfl).1

/-! ### C6: dedup tie-breaking -/

theorem listMinNat_mem : ∀ {xs : List Nat} {m : Nat}, listMinNat xs = some m → m ∈ xs := by
  intro xs
  induction xs with
  | nil => intro m h; cases h
  | cons x xs ih =>
    intro m h
    cases hxs : listMinNat xs with
    | none =>
      rw [listMinNat, hxs] at h
      cases h
      exact List.mem_cons_self _ _
    | some y =>
      rw [listMinNat, hxs] at h
      cases h
      rcases Nat.le_total x y with hle | hle
      · rw [Nat.min_eq_left hle]; exact List.mem_cons_self _ _
      · rw [Nat.min_eq_right hle]; exact List.mem_cons_of_mem _ (ih hxs)

theorem listMinNat_eq_none : ∀ {xs : List Nat}, listMinNat xs = none → xs = [] := by
  intro xs
  cases xs with
  | nil => intro _; rfl
  | cons x xs =>
    intro h
    rw [listMinNat] at h
    cases hxs : listMinNat xs with
    | none => rw [hxs] at h; cases h
    | some y => rw [hxs] at h; cases h

theorem listMinNat_le : ∀ {xs : List Nat} {m : Nat}, listMinNat xs = some m →
    ∀ x ∈ xs, m ≤ x := by
  intro xs
  induction xs with
  | nil => intro m _ x hx; cases hx
  | cons x xs ih =>
    intro m h y hy
    cases hxs : listMinNat xs with
    | none =>
      rw [listMinNat, hxs] at h
      cases h
      rcases List.mem_cons.mp hy with rfl | hy2
      · exact Nat.le_refl _
      · rw [listMinNat_eq_none hxs] at hy2
        cases hy2
    | some z =>
      rw [listMinNat, hxs] at h
      cases h
      rcases List.mem_cons.mp hy with rfl | hy2
      · exact Nat.min_le_left _ _
      · exact Nat.le_trans (Nat.min_le_right _ _) (ih hxs y hy2)

theorem filter_deleteDupRows {p : CRow → Bool} (acc : List CRow) (sym tf : String) (ts0 : Int)
    (hp : ∀ row, p row = true → row.timestampMs ≠ ts0) :
    (deleteDupRows acc sym tf ts0).filter p = acc.filter p := by
  unfold deleteDupRows
  rw [List.filter_filter]
  apply List.filter_congr
  intro row _
  cases hP : p row with
  | false => exact Bool.false_and _
  | true =>
    rw [Bool.true_and]
    apply decide_eq_true
    intro hcontra
    exact hp row hP hcontra.1.2.2

theorem minIdFor_deleteDupRows (acc : List CRow) (sym tf : String) (ts0 ts : Int)
    (hne : ts ≠ ts0) :
    minIdFor (deleteDupRows acc sym tf ts0) sym tf ts = minIdFor acc sym tf ts := by
  unfold minIdFor
  rw [filter_deleteDupRows acc sym tf ts0 ?_]
  intro row hrow hts0
  exact hne (((of_decide_eq_true hrow).2.2).symm.trans hts0)

theorem filter_foldl_deleteDupRows {p : CRow → Bool} (sym tf : String) :
    ∀ (D : List Int) (acc : List CRow),
      (∀ ts0 ∈ D, ∀ row, p row = true → row.timestampMs ≠ ts0) →
      (D.foldl (fun a ts' => deleteDupRows a sym tf ts') acc).filter p = acc.filter p := by
  intro D
  induction D with
  | nil => intro acc _; rfl
  | cons ts0 D ih =>
    intro acc hp
    rw [List.foldl_cons,
      ih _ (fun ts1 h1 row hrow => hp ts1 (List.mem_cons_of_mem _ h1) row hrow),
      filter_deleteDupRows acc sym tf ts0 (hp ts0 (List.mem_cons_self _ _))]

theorem filter_deleteDupRows_self (acc : List CRow) (sym tf : String) (ts : Int) :
    (deleteDupRows acc sym tf ts).filter (fun row => decide (matchesKey sym tf ts row))
      = acc.filter (fun row =>
          decide (matchesKey sym tf ts row ∧ minIdFor acc sym tf ts = some row.id)) := by
  unfold deleteDupRows
  rw [List.filter_filter]
  apply List.filter_congr
  intro row _
  by_cases hM : matchesKey sym tf ts row
  · by_cases hmin : minIdFor acc sym tf ts = some row.id
    · simp [hM, hmin]
    · simp [hM, hmin]
  · simp [hM]

theorem mem_deleteDupRows_of_not_matches {row : CRow} {acc : List CRow} (sym tf : String)
    (ts0 : Int) (hrow : row ∈ acc) (hn : ¬matchesKey sym tf ts0 row) :
    row ∈ deleteDupRows acc sym tf ts0 := by
  unfold deleteDupRows
  refine List.mem_filter.mpr ⟨hrow, ?_⟩
  apply decide_eq_true
  intro hcontra
  exact hn hcontra.1

theorem mem_foldl_deleteDupRows (sym tf : String) :
    ∀ (D : List Int) (acc : List CRow) (row : CRow), row ∈ acc →
      (∀ ts0 ∈ D, ¬matchesKey sym tf ts0 row) →
      row ∈ D.foldl (fun a ts' => deleteDupRows a sym tf ts') acc := by
  intro D
  induction D with
  | nil => intro acc row h _; exact h
  | cons ts0 D ih =>
    intro acc row h hn
    rw [List.foldl_cons]
    exact ih _ row
      (mem_deleteDupRows_of_not_matches sym tf ts0 h (hn ts0 (List.mem_cons_self _ _)))
      (fun ts1 h1 => hn ts1 (List.mem_cons_of_mem _ h1))

theorem foldl_deleteDupRows_filter (sym tf : String) :
    ∀ (D : List Int) (acc : List CRow), D.Nodup → ∀ ts ∈ D,
      (D.foldl (fun a ts' => deleteDupRows a sym tf ts') acc).filter
          (fun row => decide (matchesKey sym tf ts row))
        = acc.filter (fun row =>
            decide (matchesKey sym tf ts row ∧ minIdFor acc sym tf ts = some row.id)) := by
  intro D
  induction D with
  | nil => intro acc _ ts hts; cases hts
  | cons ts0 D ih =>
    intro acc hnd ts hts
    obtain ⟨hts0notin, hndD⟩ := List.nodup_cons.mp hnd
    rw [List.foldl_cons]
    rcases List.mem_cons.mp hts with rfl | hmem
    · rw [filter_foldl_deleteDupRows sym tf D (deleteDupRows acc sym tf ts) ?_,
        filter_deleteDupRows_self acc sym tf ts]
      intro ts1 h1 row hrow hts1
      have hm := of_decide_eq_true hrow
      exact hts0notin (by rw [hm.2.2.symm.trans hts1]; exact h1)
    · have hne : ts ≠ ts0 := fun hcontra => hts0notin (hcontra ▸ hmem)
      rw [ih (deleteDupRows acc sym tf ts0) hndD ts hmem,
        minIdFor_deleteDupRows acc sym tf ts0 ts hne,
        filter_deleteDupRows acc sym tf ts0 ?_]
      intro row hrow hts0
      exact hne ((of_decide_eq_true hrow).1.2.2.symm.trans hts0)

theorem length_le_one_of_same_id (l : List CRow) (m : Nat)
    (hpw : List.Pairwise (fun a b => a.id ≠ b.id) l) (hall : ∀ row ∈ l, row.id = m) :
    l.length ≤ 1 := by
  cases l with
  | nil => exact Nat.zero_le 1
  | cons a l =>
    cases l with
    | nil => exact Nat.le_refl 1
    | cons b l2 =>
      exfalso
      have hab := (List.pairwise_cons.mp hpw).1 b (List.mem_cons_self _ _)
      rw [hall a (List.mem_cons_self _ _),
        hall b (List.mem_cons_of_mem _ (List.mem_cons_self _ _))] at hab
      exact hab rfl

/-- **C6** (dedup tie-breaking).  For every table with distinct surrogate
ids and every `(symbol, timeframe)` pass, after `remove_duplicates` each
group of rows sharing `(symbol, timeframe, timestamp_ms)` with count
greater than one is reduced to exactly the row carrying the group's
minimum id: the surviving rows of the group are exactly those whose id
is `MIN(id)`, precisely one row of the group remains, every other row of
the group is gone, and rows belonging to no duplicate group survive. -/
theorem dedup_tie_breaking (t : List CRow) (sym tf : String) (cutoff : Int)
    (hIds : List.Pairwise (fun a b => a.id ≠ b.id) t) :
    (∀ ts ∈ dupTimestamps t sym tf cutoff,
      (removeDuplicates t sym tf cutoff).filter (fun row => decide (matchesKey sym tf ts row))
        = t.filter (fun row =>
            decide (matchesKey sym tf ts row ∧ minIdFor t sym tf ts = some row.id))
      ∧ ((removeDuplicates t sym tf cutoff).filter
            (fun row => decide (matchesKey sym tf ts row))).length = 1
      ∧ ∀ row ∈ t, matchesKey sym tf ts row → minIdFor t sym tf ts ≠ some row.id →
          row ∉ removeDuplicates t sym tf cutoff)
    ∧ ∀ row ∈ t, (∀ ts ∈ dupTimestamps t sym tf cutoff, ¬matchesKey sym tf ts row) →
        row ∈ removeDuplicates t sym tf cutoff := by
  have hnodup : (dupTimestamps t sym tf cutoff).Nodup := by
    unfold dupTimestamps
    exact List.Nodup.filter _ (List.nodup_dedup _)
  have hrd : removeDuplicates t sym tf cutoff
      = (dupTimestamps t sym tf cutoff).foldl (fun a ts' => deleteDupRows a sym tf ts') t := rfl
  constructor
  · intro ts hts
    have hfilter := foldl_deleteDupRows_filter sym tf (dupTimestamps t sym tf cutoff) t hnodup ts hts
    refine ⟨by rw [hrd, hfilter], ?_, ?_⟩
    · -- the group is nonempty, so MIN(id) exists and is attained by a unique row
      have hgroup : ∃ row ∈ t, matchesKey sym tf ts row := by
        have hts2 := hts
        unfold dupTimestamps at hts2
        obtain ⟨hdedup, _⟩ := List.mem_filter.mp hts2
        obtain ⟨row, hrowwin, hrowts⟩ := List.mem_map.mp (List.mem_dedup.mp hdedup)
        obtain ⟨hrowt, hwin⟩ := List.mem_filter.mp hrowwin
        have hw := of_decide_eq_true hwin
        exact ⟨row, hrowt, hw.1, hw.2.1, hrowts⟩
      obtain ⟨row0, hrow0, hM0⟩ := hgroup
      have hmemfil : row0 ∈ t.filter (fun row => decide (matchesKey sym tf ts row)) :=
        List.mem_filter.mpr ⟨hrow0, decide_eq_true hM0⟩
      have hne : ((t.filter (fun row => decide (matchesKey sym tf ts row))).map (·.id)) ≠ [] := by
        intro hcon
        rw [List.map_eq_nil_iff] at hcon
        rw [hcon] at hmemfil
        cases hmemfil
      obtain ⟨m, hm⟩ : ∃ m, minIdFor t sym tf ts = some m := by
        unfold minIdFor
        cases hmn : listMinNat ((t.filter (fun row => decide (matchesKey sym tf ts row))).map (·.id)) with
        | none => exact absurd (listMinNat_eq_none hmn) hne
        | some m => exact ⟨m, rfl⟩
      obtain ⟨rowMin, hrowMinFil, hrowMinId⟩ :=
        List.mem_map.mp (listMinNat_mem (by unfold minIdFor at hm; exact hm))
      obtain ⟨hrowMint, hrowMinM⟩ := List.mem_filter.mp hrowMinFil
      rw [hrd, hfilter]
      have hge : 1 ≤ (t.filter (fun row =>
          decide (matchesKey sym tf ts row ∧ minIdFor t sym tf ts = some row.id))).length := by
        have hmm : rowMin ∈ t.filter (fun row =>
            decide (matchesKey sym tf ts row ∧ minIdFor t sym tf ts = some row.id)) := by
          refine List.mem_filter.mpr ⟨hrowMint, decide_eq_true ⟨of_decide_eq_true hrowMinM, ?_⟩⟩
          rw [hm, hrowMinId]
        have hne2 : t.filter (fun row =>
            decide (matchesKey sym tf ts row ∧ minIdFor t sym tf ts = some row.id)) ≠ [] := by
          intro hcon
          rw [hcon] at hmm
          cases hmm
        exact List.length_pos.mpr hne2
      have hle : (t.filter (fun row =>
          decide (matchesKey sym tf ts row ∧ minIdFor t sym tf ts = some row.id))).length ≤ 1 := by
        refine length_le_one_of_same_id _ m
          (List.Pairwise.sublist (List.filter_sublist t) hIds) ?_
        intro row hrow
        have hcond := of_decide_eq_true (List.mem_filter.mp hrow).2
        have h2 : some m = some row.id := by rw [← hm]; exact hcond.2
        exact (Option.some.inj h2).symm
      exact Nat.le_antisymm hle hge
    · intro row hrow hM hmin hmem
      have hmemf : row ∈ (removeDuplicates t sym tf cutoff).filter
          (fun row => decide (matchesKey sym tf ts row)) :=
        List.mem_filter.mpr ⟨hmem, decide_eq_true hM⟩
      rw [hrd, hfilter] at hmemf
      exact hmin (of_decide_eq_true (List.mem_filter.mp hmemf).2).2
  · intro row hrow hn
    rw [hrd]
    exact mem_foldl_deleteDupRows sym tf _ t row hrow hn

/-- Witness for `dedup_tie_breaking`: scenario S1 — two rows with the
same `(BTC-USDT-SWAP, 1h, 1700000000000)` key and surrogate ids 10 and
11; after the pass exactly one row of the group remains (the one with
id 10). -/
theorem dedup_tie_breaking_witness :
    ((removeDuplicates
        [⟨10, "BTC-USDT-SWAP", "1h", 1700000000000, 1, 2, 1, 2, 1, 0⟩,
          ⟨11, "BTC-USDT-SWAP", "1h", 1700000000000, 1, 2, 1, 2, 1, 0⟩]
        "BTC-USDT-SWAP" "1h" 0).filter
      (fun row => decide (matchesKey "BTC-USDT-SWAP" "1h" 1700000000000 row))).length = 1 :=
  ((dedup_tie_breaking
      [⟨10, "BTC-USDT-SWAP", "1h", 1700000000000, 1, 2, 1, 2, 1, 0⟩,
        ⟨11, "BTC-USDT-SWAP", "1h", 1700000000000, 1, 2, 1, 2, 1, 0⟩]
      "BTC-USDT-SWAP" "1h" 0 (by decide)).1 1700000000000 (by decide)).2.1

/-! ### C7: gap detection -/

theorem intervalMsOf_pos (tf : String) : 0 < intervalMsOf tf := by
  unfold intervalMsOf timeframeIntervalMinutes
  split_ifs <;> norm_num

theorem expectedTimestamps_self (a i : Int) : expectedTimestamps a a i = [a] := by
  unfold expectedTimestamps
  rw [if_pos (le_refl a), Int.sub_self, Int.zero_ediv]
  show List.map (fun (k : Nat) => a + (k : Int) * i) [0] = [a]
  simp

theorem expectedTimestamps_append (a b i : Int) (hi : 0 < i) (hab : a ≤ b)
    (hd : i ∣ (b - a)) : expectedTimestamps a (b + i) i = expectedTimestamps a b i ++ [b + i] := by
  obtain ⟨q, hq⟩ := hd
  have hq0 : 0 ≤ q := by
    by_contra hneg
    push_neg at hneg
    have : i * q < 0 := mul_neg_of_pos_of_neg hi hneg
    omega
  have hd1 : (b - a) / i = q := by
    rw [hq]
    exact Int.mul_ediv_cancel_left q (ne_of_gt hi)
  have hd2 : (b + i - a) / i = q + 1 := by
    have hval : b + i - a = i * (q + 1) := by rw [mul_add, ← hq]; ring
    rw [hval]
    exact Int.mul_ediv_cancel_left (q + 1) (ne_of_gt hi)
  have hab2 : a ≤ b + i := le_trans hab (by omega)
  unfold expectedTimestamps
  rw [if_pos hab, if_pos hab2, hd1, hd2]
  have htn : (q + 1).toNat = q.toNat + 1 := by omega
  rw [htn, List.range_succ, List.map_append]
  congr 1
  show [a + ((q.toNat + 1 : Nat) : Int) * i] = [b + i]
  have hcast : ((q.toNat + 1 : Nat) : Int) = q + 1 := by omega
  rw [hcast]
  have hval : a + (q + 1) * i = b + i := by
    have hb : b = a + i * q := by omega
    rw [hb]; ring
  rw [hval]

theorem mem_expectedTimestamps (a b i ts : Int) (hi : 0 < i) (hab : a ≤ b) :
    ts ∈ expectedTimestamps a b i ↔
      ∃ k : Nat, (k : Int) ≤ (b - a) / i ∧ ts = a + k * i := by
  unfold expectedTimestamps
  rw [if_pos hab]
  have hq0 : 0 ≤ (b - a) / i := Int.ediv_nonneg (by omega) (le_of_lt hi)
  constructor
  · intro h
    obtain ⟨k, hk, hf⟩ := List.mem_map.mp h
    rw [List.mem_range] at hk
    exact ⟨k, by omega, hf.symm⟩
  · intro ⟨k, hk, hf⟩
    exact List.mem_map.mpr ⟨k, List.mem_range.mpr (by omega), hf.symm⟩

theorem coalesceGaps_cover (sym tf : String) (i : Int) (ec : Nat) (hi : 0 < i) :
    ∀ (rest : List Int) (gs ge : Int), gs ≤ ge → i ∣ (ge - gs) →
      (coalesceGaps sym tf i ec gs ge rest).flatMap
          (fun g => expectedTimestamps g.startTs g.endTs i)
        = expectedTimestamps gs ge i ++ rest := by
  intro rest
  induction rest with
  | nil =>
    intro gs ge _ _
    simp [coalesceGaps, mkGap]
  | cons m rest ih =>
    intro gs ge h1 h2
    by_cases hm : m = ge + i
    · rw [coalesceGaps, if_pos hm]
      subst hm
      rw [ih gs (ge + i) (by omega) (by
        have hval : ge + i - gs = (ge - gs) + i := by ring
        rw [hval]
        exact dvd_add h2 (dvd_refl i))]
      rw [expectedTimestamps_append gs ge i hi h1 h2, List.append_assoc]
      rfl
    · rw [coalesceGaps, if_neg hm, List.flatMap_cons]
      rw [ih m m (le_refl m) (by simp)]
      show expectedTimestamps (mkGap sym tf gs ge i ec).startTs (mkGap sym tf gs ge i ec).endTs i
          ++ (expectedTimestamps m m i ++ rest) = expectedTimestamps gs ge i ++ m :: rest
      rw [expectedTimestamps_self m i]
      rfl

theorem coalesceGaps_head_start (sym tf : String) (i : Int) (ec : Nat) :
    ∀ (rest : List Int) (gs ge : Int),
      ∃ g gaps2, coalesceGaps sym tf i ec gs ge rest = g :: gaps2 ∧ g.startTs = gs := by
  intro rest
  induction rest with
  | nil =>
    intro gs ge
    exact ⟨mkGap sym tf gs ge i ec, [], rfl, rfl⟩
  | cons m rest ih =>
    intro gs ge
    by_cases hm : m = ge + i
    · rw [coalesceGaps, if_pos hm]
      exact ih gs m
    · rw [coalesceGaps, if_neg hm]
      exact ⟨mkGap sym tf gs ge i ec, _, rfl, rfl⟩

theorem coalesceGaps_chain (sym tf : String) (i : Int) (ec : Nat) :
    ∀ (rest : List Int) (gs ge : Int),
      List.Chain' (fun g1 g2 => g2.startTs ≠ g1.endTs + i)
        (coalesceGaps sym tf i ec gs ge rest) := by
  intro rest
  induction rest with
  | nil =>
    intro gs ge
    exact List.chain'_singleton _
  | cons m rest ih =>
    intro gs ge
    by_cases hm : m = ge + i
    · rw [coalesceGaps, if_pos hm]
      exact ih gs m
    · rw [coalesceGaps, if_neg hm]
      obtain ⟨g, gaps2, hco, hgs⟩ := coalesceGaps_head_start sym tf i ec rest m m
      rw [hco, List.chain'_cons]
      refine ⟨?_, hco ▸ ih m m⟩
      rw [hgs]
      exact hm

/-- **C7** (gap detection).  For a window `[startTs, endTs]`, the
reconciler's expected-timestamp set is exactly
`startTs + k * interval_ms` for natural `k ≤ (endTs - startTs) / interval_ms`;
the missing set is the expected set minus the stored set; the returned
gaps, each expanded to its arithmetic range with step `interval_ms`,
exactly cover the missing set in order; consecutive returned gaps are
never mergeable (the next gap never starts exactly one interval after
the previous one ends); and a single missing timestamp yields one gap
with `start = end` and `missing_count = 1`. -/
theorem gap_detection (sym tf : String) (startTs endTs : Int) (existing : List Int)
    (hwin : startTs ≤ endTs) :
    (∀ ts : Int, ts ∈ expectedTimestamps startTs endTs (intervalMsOf tf) ↔
      ∃ k : Nat, (k : Int) ≤ (endTs - startTs) / intervalMsOf tf
        ∧ ts = startTs + k * intervalMsOf tf)
    ∧ (∀ ts : Int, ts ∈ missingTimestamps startTs endTs (intervalMsOf tf) existing ↔
        ts ∈ expectedTimestamps startTs endTs (intervalMsOf tf) ∧ ts ∉ existing)
    ∧ (detectDataGaps sym tf startTs endTs existing).flatMap
        (fun g => expectedTimestamps g.startTs g.endTs (intervalMsOf tf))
      = missingTimestamps startTs endTs (intervalMsOf tf) existing
    ∧ List.Chain' (fun g1 g2 => g2.startTs ≠ g1.endTs + intervalMsOf tf)
        (detectDataGaps sym tf startTs endTs existing)
    ∧ (∀ m : Int, missingTimestamps startTs endTs (intervalMsOf tf) existing = [m] →
        detectDataGaps sym tf startTs endTs existing
          = [⟨sym, tf, m, m, (expectedTimestamps startTs endTs (intervalMsOf tf)).length, 1⟩]) := by
  have hi := intervalMsOf_pos tf
  refine ⟨fun ts => mem_expectedTimestamps startTs endTs (intervalMsOf tf) ts hi hwin,
    ?_, ?_, ?_, ?_⟩
  · intro ts
    unfold missingTimestamps
    rw [List.mem_filter]
    constructor
    · intro ⟨h1, h2⟩
      exact ⟨h1, of_decide_eq_true h2⟩
    · intro ⟨h1, h2⟩
      exact ⟨h1, decide_eq_true h2⟩
  · unfold detectDataGaps
    cases hmiss : missingTimestamps startTs endTs (intervalMsOf tf) existing with
    | nil => rfl
    | cons m rest =>
      rw [coalesceGaps_cover sym tf (intervalMsOf tf) _ hi rest m m (le_refl m) (by simp),
        expectedTimestamps_self m]
      rfl
  · unfold detectDataGaps
    cases hmiss : missingTimestamps startTs endTs (intervalMsOf tf) existing with
    | nil => exact List.chain'_nil
    | cons m rest => exact coalesceGaps_chain sym tf (intervalMsOf tf) _ rest m m
  · intro m hm
    unfold detectDataGaps
    rw [hm]
    show [mkGap sym tf m m (intervalMsOf tf) _] = _
    unfold mkGap
    rw [Int.sub_self, Int.zero_ediv]
    rfl

/-- Witness for `gap_detection`: scenario S2 — 1h candles stored at
`1700000000000` and `1700007200000`, window covering that span; the
single missing timestamp `1700003600000` yields exactly one gap with
`start = end = 1700003600000`. -/
theorem gap_detection_witness :
    detectDataGaps "BTC-USDT-SWAP" "1h" 1700000000000 1700007200000
        [1700000000000, 1700007200000]
      = [⟨"BTC-USDT-SWAP", "1h", 1700003600000, 1700003600000,
          (expectedTimestamps 1700000000000 1700007200000 (intervalMsOf "1h")).length, 1⟩] :=
  (gap_detection "BTC-USDT-SWAP" "1h" 1700000000000 1700007200000
      [1700000000000, 1700007200000] (by decide)).2.2.2.2 1700003600000 (by decide)

/-! ### C8: invalid-row purge -/

theorem foldl_filter_ne_ids :
    ∀ (ids : List Nat) (acc : List CRow),
      ids.foldl (fun a i => a.filter fun row => decide (row.id ≠ i)) acc
        = acc.filter fun row => decide (row.id ∉ ids) := by
  intro ids
  induction ids with
  | nil =>
    intro acc
    show acc = acc.filter fun row => decide (row.id ∉ ([] : List Nat))
    symm
    rw [List.filter_eq_self]
    intro row _
    exact decide_eq_true (List.not_mem_nil _)
  | cons i ids ih =>
    intro acc
    rw [List.foldl_cons, ih, List.filter_filter]
    apply List.filter_congr
    intro row _
    by_cases h1 : row.id = i
    · have hmem : row.id ∈ i :: ids := h1 ▸ List.mem_cons_self _ _
      simp [h1, hmem]
    · by_cases h2 : row.id ∈ ids
      · simp [h1, h2]
      · have hnot : row.id ∉ i :: ids := by
          intro hcon
          rcases List.mem_cons.mp hcon with hcon1 | hcon2
          · exact h1 hcon1
          · exact h2 hcon2
        simp [h1, h2, hnot]

theorem mem_eq_of_same_id :
    ∀ {t : List CRow}, List.Pairwise (fun a b => a.id ≠ b.id) t →
      ∀ {row row2 : CRow}, row ∈ t → row2 ∈ t → row.id = row2.id → row = row2 := by
  intro t
  induction t with
  | nil => intro _ row row2 h; cases h
  | cons a t ih =>
    intro hpw row row2 h1 h2 hid
    obtain ⟨hhead, htail⟩ := List.pairwise_cons.mp hpw
    rcases List.mem_cons.mp h1 with rfl | hm1
    · rcases List.mem_cons.mp h2 with rfl | hm2
      · rfl
      · exact absurd hid (hhead row2 hm2)
    · rcases List.mem_cons.mp h2 with rfl | hm2
      · exact absurd hid.symm (hhead row hm1)
      · exact ih htail hm1 hm2 hid

/-- **C8 counterexample**.  The claim asserts that a reconciliation pass
deletes every row violating any §3 invariant, including
`timestamp_ms ≡ 0 (mod interval_ms(timeframe))`.  A row with a
misaligned timestamp (`timestamp_ms = 1` on timeframe `1h`) but valid
prices and volume lies in the window, violates the spec's alignment
invariant, and survives `fix_invalid_data` untouched. -/
theorem invalid_purge_counterexample :
    fixInvalidData [⟨1, "BTC-USDT-SWAP", "1h", 1, 1, 2, 1, 2, 1, 0⟩] "BTC-USDT-SWAP" "1h" 0
      = [⟨1, "BTC-USDT-SWAP", "1h", 1, 1, 2, 1, 2, 1, 0⟩]
    ∧ rowInWindow "BTC-USDT-SWAP" "1h" 0 ⟨1, "BTC-USDT-SWAP", "1h", 1, 1, 2, 1, 2, 1, 0⟩
    ∧ specRowInvariantViolated ⟨1, "BTC-USDT-SWAP", "1h", 1, 1, 2, 1, 2, 1, 0⟩ := by
  decide

/-- **C8 amended** (invalid-row purge).  For a table with distinct
surrogate ids, `fix_invalid_data` deletes exactly the rows of the window
that violate the price/volume invariants checked by its query —
positive open/high/low/close/volume, `high ≥ low`, `high ≥ open`,
`high ≥ close`, `low ≤ open`, `low ≤ close` — so that after the pass no
row in the window violates any of those invariants; the timestamp
alignment condition of §3 is not checked and misaligned rows may
remain. -/
theorem invalid_purge_amended (t : List CRow) (sym tf : String) (cutoff : Int)
    (hIds : List.Pairwise (fun a b => a.id ≠ b.id) t) :
    fixInvalidData t sym tf cutoff
      = t.filter (fun row => decide (¬(rowInWindow sym tf cutoff row ∧ isInvalidRow row)))
    ∧ ∀ row ∈ fixInvalidData t sym tf cutoff,
        rowInWindow sym tf cutoff row → ¬isInvalidRow row := by
  have hchar : fixInvalidData t sym tf cutoff
      = t.filter (fun row => decide (¬(rowInWindow sym tf cutoff row ∧ isInvalidRow row))) := by
    unfold fixInvalidData
    rw [foldl_filter_ne_ids]
    apply List.filter_congr
    intro row hrow
    by_cases hP : rowInWindow sym tf cutoff row ∧ isInvalidRow row
    · have hin : row.id ∈ (t.filter fun row2 =>
          decide (rowInWindow sym tf cutoff row2 ∧ isInvalidRow row2)).map (·.id) :=
        List.mem_map.mpr ⟨row, List.mem_filter.mpr ⟨hrow, decide_eq_true hP⟩, rfl⟩
      rw [decide_eq_decide]
      exact iff_of_false (fun hno => hno hin) (fun hnp => hnp hP)
    · have hnotin : row.id ∉ (t.filter fun row2 =>
          decide (rowInWindow sym tf cutoff row2 ∧ isInvalidRow row2)).map (·.id) := by
        intro hcon
        obtain ⟨row2, hrow2, hid⟩ := List.mem_map.mp hcon
        obtain ⟨hrow2t, hP2⟩ := List.mem_filter.mp hrow2
        have heq := mem_eq_of_same_id hIds hrow2t hrow hid
        subst heq
        exact hP (of_decide_eq_true hP2)
      rw [decide_eq_decide]
      exact iff_of_true hnotin hP
  refine ⟨hchar, ?_⟩
  intro row hrow hwin hinv
  rw [hchar] at hrow
  exact of_decide_eq_true (List.mem_filter.mp hrow).2 ⟨hwin, hinv⟩

/-- Witness for `invalid_purge_amended`: the distinct-id hypothesis
discharged at a two-row table (scenario S3's `high < low` row plus a
valid row); the pass deletes exactly the invalid row. -/
theorem invalid_purge_amended_witness :
    fixInvalidData
        [⟨1, "BTC-USDT-SWAP", "1h", 0, 1, 1, 2, 1, 1, 0⟩,
          ⟨2, "BTC-USDT-SWAP", "1h", 3600000, 1, 2, 1, 2, 1, 0⟩]
        "BTC-USDT-SWAP" "1h" 0
      = List.filter
          (fun row => decide (¬(rowInWindow "BTC-USDT-SWAP" "1h" 0 row ∧ isInvalidRow row)))
          [⟨1, "BTC-USDT-SWAP", "1h", 0, 1, 1, 2, 1, 1, 0⟩,
            ⟨2, "BTC-USDT-SWAP", "1h", 3600000, 1, 2, 1, 2, 1, 0⟩] :=
  (invalid_purge_amended
      [⟨1, "BTC-USDT-SWAP", "1h", 0, 1, 1, 2, 1, 1, 0⟩,
        ⟨2, "BTC-USDT-SWAP", "1h", 3600000, 1, 2, 1, 2, 1, 0⟩]
      "BTC-USDT-SWAP" "1h" 0 (by decide)).1

/-! ### C9 and C10: gap fill and the reconciler's DO NOTHING frame -/

theorem keyPresent_append_false {a b : List CRow} {k : CKey}
    (h : keyPresent (a ++ b) k = false) : keyPresent a k = false := by
  unfold keyPresent at *
  rw [List.any_append] at h
  exact (Bool.or_eq_false_iff.mp h).1

theorem foldl_insert_extends {γ : Type} (step : List CRow × γ → FetchedCandle → List CRow × γ)
    (P : FetchedCandle → CRow → Prop)
    (hstep : ∀ (st : List CRow × γ) (cd : FetchedCandle),
      ∃ new1, (step st cd).1 = st.1 ++ new1
        ∧ ∀ row ∈ new1, P cd row ∧ keyPresent st.1 (rowKey row) = false) :
    ∀ (cds : List FetchedCandle) (st : List CRow × γ),
      ∃ new, (cds.foldl step st).1 = st.1 ++ new
        ∧ ∀ row ∈ new, (∃ cd ∈ cds, P cd row) ∧ keyPresent st.1 (rowKey row) = false := by
  intro cds
  induction cds with
  | nil =>
    intro st
    exact ⟨[], (List.append_nil _).symm, fun row h => absurd h (List.not_mem_nil _)⟩
  | cons cd cds ih =>
    intro st
    obtain ⟨new1, h1, hp1⟩ := hstep st cd
    obtain ⟨new2, h2, hp2⟩ := ih (step st cd)
    refine ⟨new1 ++ new2, ?_, ?_⟩
    · rw [List.foldl_cons, h2, h1, List.append_assoc]
    · intro row hrow
      rcases List.mem_append.mp hrow with hm | hm
      · obtain ⟨hP, hkp⟩ := hp1 row hm
        exact ⟨⟨cd, List.mem_cons_self _ _, hP⟩, hkp⟩
      · obtain ⟨⟨cd2, hcd2, hP⟩, hkp⟩ := hp2 row hm
        rw [h1] at hkp
        exact ⟨⟨cd2, List.mem_cons_of_mem _ hcd2, hP⟩, keyPresent_append_false hkp⟩

theorem keyPresent_of_ne_true {t : List CRow} {k : CKey}
    (h : ¬keyPresent t k = true) : keyPresent t k = false := by
  revert h
  cases keyPresent t k <;> simp

theorem insertDoNothing_extends (st1 : List CRow) (sym tf : String) (cd : FetchedCandle)
    (now : Int) (hv : ¬(cd.volume ≤ 0 ∨ cd.closePrice ≤ 0)) :
    ∃ new1, (insertDoNothing st1 sym tf cd now).1 = st1 ++ new1
      ∧ ∀ row ∈ new1, insertedRow sym tf now cd row ∧ keyPresent st1 (rowKey row) = false := by
  push_neg at hv
  unfold insertDoNothing
  by_cases hkp : keyPresent st1 (sym, tf, cd.ts) = true
  · rw [if_pos hkp]
    exact ⟨[], (List.append_nil _).symm, fun row h => absurd h (List.not_mem_nil _)⟩
  · rw [if_neg hkp]
    refine ⟨[newRow (maxId st1 + 1)
      ⟨sym, tf, cd.ts, cd.openPrice, cd.highPrice, cd.lowPrice, cd.closePrice, cd.volume⟩ now],
      rfl, ?_⟩
    intro row hrow
    rcases List.mem_cons.mp hrow with rfl | hcon
    · refine ⟨⟨hv.1, hv.2, rfl, rfl, rfl, rfl, rfl⟩, ?_⟩
      exact keyPresent_of_ne_true hkp
    · cases hcon

theorem fillDataGap_step_extends (sym tf : String) (now : Int)
    (st : List CRow × Nat) (cd : FetchedCandle) :
    ∃ new1,
      ((if cd.volume ≤ 0 ∨ cd.closePrice ≤ 0 then st
        else
          ((insertDoNothing st.1 sym tf cd now).1,
            if (insertDoNothing st.1 sym tf cd now).2 then st.2 + 1 else st.2)).1
        = st.1 ++ new1)
      ∧ ∀ row ∈ new1, insertedRow sym tf now cd row ∧ keyPresent st.1 (rowKey row) = false := by
  by_cases hv : cd.volume ≤ 0 ∨ cd.closePrice ≤ 0
  · rw [if_pos hv]
    exact ⟨[], (List.append_nil _).symm, fun row h => absurd h (List.not_mem_nil _)⟩
  · rw [if_neg hv]
    exact insertDoNothing_extends st.1 sym tf cd now hv

theorem insertCandlesBatch_step_extends (sym tf : String) (now : Int)
    (st : List CRow × Nat × Nat) (cd : FetchedCandle) :
    ∃ new1,
      ((if cd.volume ≤ 0 ∨ cd.closePrice ≤ 0 then st
        else
          ((insertDoNothing st.1 sym tf cd now).1,
            if (insertDoNothing st.1 sym tf cd now).2 then (st.2.1 + 1, st.2.2)
            else (st.2.1, st.2.2 + 1))).1
        = st.1 ++ new1)
      ∧ ∀ row ∈ new1, insertedRow sym tf now cd row ∧ keyPresent st.1 (rowKey row) = false := by
  by_cases hv : cd.volume ≤ 0 ∨ cd.closePrice ≤ 0
  · rw [if_pos hv]
    exact ⟨[], (List.append_nil _).symm, fun row h => absurd h (List.not_mem_nil _)⟩
  · rw [if_neg hv]
    exact insertDoNothing_extends st.1 sym tf cd now hv

theorem fillDataGap_extends (t : List CRow) (gap : DataGap)
    (fetch : Int → Nat → List FetchedCandle) (now : Int) :
    ∃ new, (fillDataGap t gap fetch now).1 = t ++ new
      ∧ ∀ row ∈ new,
          keyPresent t (rowKey row) = false
          ∧ ∃ cd ∈ (fetch (gapFetchSince gap) 1000).filter (fun cd =>
              decide (gap.startTs ≤ cd.ts ∧ cd.ts ≤ gap.endTs)),
            insertedRow gap.symbol gap.timeframe now cd row := by
  unfold fillDataGap
  by_cases h0 : fetch (gapFetchSince gap) 1000 = []
  · rw [if_pos h0]
    exact ⟨[], (List.append_nil _).symm, fun row h => absurd h (List.not_mem_nil _)⟩
  · rw [if_neg h0]
    by_cases h1 : (fetch (gapFetchSince gap) 1000).filter (fun cd =>
        decide (gap.startTs ≤ cd.ts ∧ cd.ts ≤ gap.endTs)) = []
    · rw [if_pos h1]
      exact ⟨[], (List.append_nil _).symm, fun row h => absurd h (List.not_mem_nil _)⟩
    · rw [if_neg h1]
      obtain ⟨new, hfold, hprops⟩ := foldl_insert_extends
        (fun acc cd =>
          if cd.volume ≤ 0 ∨ cd.closePrice ≤ 0 then acc
          else
            ((insertDoNothing acc.1 gap.symbol gap.timeframe cd now).1,
              if (insertDoNothing acc.1 gap.symbol gap.timeframe cd now).2 then acc.2 + 1
              else acc.2))
        (insertedRow gap.symbol gap.timeframe now)
        (fun st cd => fillDataGap_step_extends gap.symbol gap.timeframe now st cd)
        ((fetch (gapFetchSince gap) 1000).filter (fun cd =>
          decide (gap.startTs ≤ cd.ts ∧ cd.ts ≤ gap.endTs)))
        (t, 0)
      refine ⟨new, hfold, ?_⟩
      intro row hrow
      obtain ⟨⟨cd, hcd, hP⟩, hkp⟩ := hprops row hrow
      exact ⟨hkp, cd, hcd, hP⟩

theorem insertCandlesBatch_extends (t : List CRow) (sym tf : String)
    (cds : List FetchedCandle) (now : Int) :
    ∃ new, (insertCandlesBatch t sym tf cds now).1 = t ++ new
      ∧ ∀ row ∈ new,
          keyPresent t (rowKey row) = false ∧ ∃ cd ∈ cds, insertedRow sym tf now cd row := by
  unfold insertCandlesBatch
  by_cases h0 : cds = []
  · rw [if_pos h0]
    exact ⟨[], (List.append_nil _).symm, fun row h => absurd h (List.not_mem_nil _)⟩
  · rw [if_neg h0]
    obtain ⟨new, hfold, hprops⟩ := foldl_insert_extends
      (fun acc cd =>
        if cd.volume ≤ 0 ∨ cd.closePrice ≤ 0 then acc
        else
          ((insertDoNothing acc.1 sym tf cd now).1,
            if (insertDoNothing acc.1 sym tf cd now).2 then (acc.2.1 + 1, acc.2.2)
            else (acc.2.1, acc.2.2 + 1)))
      (insertedRow sym tf now)
      (fun st cd => insertCandlesBatch_step_extends sym tf now st cd)
      cds (t, 0, 0)
    refine ⟨new, hfold, ?_⟩
    intro row hrow
    obtain ⟨⟨cd, hcd, hP⟩, hkp⟩ := hprops row hrow
    exact ⟨hkp, cd, hcd, hP⟩

/-- **C9** (gap fill).  For every detected gap the reconciler fetches
with `since = gap.start_ts - interval_ms` and `limit = 1000`, keeps only
returned rows whose timestamp lies in `[gap.start_ts, gap.end_ts]`,
skips rows with non-positive volume or close, and inserts the survivors
with `ON CONFLICT DO NOTHING`: the table is only extended, every
appended row comes from an in-range, validated fetched candle, and no
existing key is touched.  In scenario S2 (two 1h candles two hours
apart, one gap `[1700003600000, 1700003600000]`) the fetch uses
`since = 1700000000000` and the pass inserts exactly one row, ending
with the three contiguous timestamps in the store. -/
theorem gap_fill (t : List CRow) (gap : DataGap)
    (fetch : Int → Nat → List FetchedCandle) (now : Int) :
    gapFetchSince gap = gap.startTs - intervalMsOf gap.timeframe
    ∧ (∃ new, (fillDataGap t gap fetch now).1 = t ++ new
        ∧ ∀ row ∈ new,
            keyPresent t (rowKey row) = false
            ∧ ∃ cd ∈ fetch (gapFetchSince gap) 1000,
                (gap.startTs ≤ cd.ts ∧ cd.ts ≤ gap.endTs)
                ∧ insertedRow gap.symbol gap.timeframe now cd row)
    ∧ gapFetchSince ⟨"BTC-USDT-SWAP", "1h", 1700003600000, 1700003600000, 3, 1⟩
        = 1700000000000
    ∧ (fillDataGap
          [⟨1, "BTC-USDT-SWAP", "1h", 1700000000000, 1, 2, 1, 2, 1, 0⟩,
            ⟨2, "BTC-USDT-SWAP", "1h", 1700007200000, 1, 2, 1, 2, 1, 0⟩]
          ⟨"BTC-USDT-SWAP", "1h", 1700003600000, 1700003600000, 3, 1⟩
          (fun _ _ =>
            [⟨1700000000000, 1, 2, 1, 2, 1⟩, ⟨1700003600000, 1, 2, 1, 2, 1⟩,
              ⟨1700007200000, 1, 2, 1, 2, 1⟩]) 5).2 = 1
    ∧ ((fillDataGap
          [⟨1, "BTC-USDT-SWAP", "1h", 1700000000000, 1, 2, 1, 2, 1, 0⟩,
            ⟨2, "BTC-USDT-SWAP", "1h", 1700007200000, 1, 2, 1, 2, 1, 0⟩]
          ⟨"BTC-USDT-SWAP", "1h", 1700003600000, 1700003600000, 3, 1⟩
          (fun _ _ =>
            [⟨1700000000000, 1, 2, 1, 2, 1⟩, ⟨1700003600000, 1, 2, 1, 2, 1⟩,
              ⟨1700007200000, 1, 2, 1, 2, 1⟩]) 5).1).map (·.timestampMs)
        = [1700000000000, 1700007200000, 1700003600000] := by
  refine ⟨rfl, ?_, by decide, by decide, by decide⟩
  obtain ⟨new, hfold, hprops⟩ := fillDataGap_extends t gap fetch now
  refine ⟨new, hfold, ?_⟩
  intro row hrow
  obtain ⟨hkp, cd, hcd, hP⟩ := hprops row hrow
  obtain ⟨hcdmem, hrange⟩ := List.mem_filter.mp hcd
  exact ⟨hkp, cd, hcdmem, of_decide_eq_true hrange, hP⟩

/-- Witness for `gap_fill`: the membership hypotheses discharged at a
concrete empty table and oracle, projecting the concrete S2 inserted
count. -/
theorem gap_fill_witness :
    (fillDataGap
        [⟨1, "BTC-USDT-SWAP", "1h", 1700000000000, 1, 2, 1, 2, 1, 0⟩,
          ⟨2, "BTC-USDT-SWAP", "1h", 1700007200000, 1, 2, 1, 2, 1, 0⟩]
        ⟨"BTC-USDT-SWAP", "1h", 1700003600000, 1700003600000, 3, 1⟩
        (fun _ _ =>
          [⟨1700000000000, 1, 2, 1, 2, 1⟩, ⟨1700003600000, 1, 2, 1, 2, 1⟩,
            ⟨1700007200000, 1, 2, 1, 2, 1⟩]) 5).2 = 1 :=
  (gap_fill [] ⟨"BTC-USDT-SWAP", "1h", 0, 0, 0, 0⟩ (fun _ _ => []) 0).2.2.2.1

/-- **C10** (reconciler writes never overwrite).  Both the historical
backfill batch insert and the gap-fill insert use `ON CONFLICT DO
NOTHING`: each run only appends rows whose `(symbol, timeframe,
timestamp_ms)` key was absent, and every row already present — every
column of it — is still present unchanged afterwards, so the
reconciler's write path never overwrites data previously written by the
persister. -/
theorem reconciler_never_overwrites (t : List CRow) (sym tf : String)
    (cds : List FetchedCandle) (gap : DataGap)
    (fetch : Int → Nat → List FetchedCandle) (now : Int) :
    (∃ new, (insertCandlesBatch t sym tf cds now).1 = t ++ new
        ∧ ∀ row ∈ new, keyPresent t (rowKey row) = false)
    ∧ (∃ new, (fillDataGap t gap fetch now).1 = t ++ new
        ∧ ∀ row ∈ new, keyPresent t (rowKey row) = false)
    ∧ ∀ row ∈ t, row ∈ (insertCandlesBatch t sym tf cds now).1
        ∧ row ∈ (fillDataGap t gap fetch now).1 := by
  obtain ⟨new1, h1, hp1⟩ := insertCandlesBatch_extends t sym tf cds now
  obtain ⟨new2, h2, hp2⟩ := fillDataGap_extends t gap fetch now
  refine ⟨⟨new1, h1, fun row hrow => (hp1 row hrow).1⟩,
    ⟨new2, h2, fun row hrow => (hp2 row hrow).1⟩, ?_⟩
  intro row hrow
  constructor
  · rw [h1]; exact List.mem_append_left _ hrow
  · rw [h2]; exact List.mem_append_left _ hrow

/-- Witness for `reconciler_never_overwrites`: the membership hypotheses
discharged at a one-row table whose key collides with the fetched
candle; the existing row is still present after both write paths. -/
theorem reconciler_never_overwrites_witness :
    ⟨7, "BTC-USDT-SWAP", "1h", 1700000000000, 1, 2, 1, 2, 1, 0⟩ ∈
        (insertCandlesBatch [⟨7, "BTC-USDT-SWAP", "1h", 1700000000000, 1, 2, 1, 2, 1, 0⟩]
          "BTC-USDT-SWAP" "1h" [⟨1700000000000, 9, 9, 9, 9, 9⟩] 3).1
      ∧ ⟨7, "BTC-USDT-SWAP", "1h", 1700000000000, 1, 2, 1, 2, 1, 0⟩ ∈
        (fillDataGap [⟨7, "BTC-USDT-SWAP", "1h", 1700000000000, 1, 2, 1, 2, 1, 0⟩]
          ⟨"BTC-USDT-SWAP", "1h", 1700000000000, 1700000000000, 1, 1⟩
          (fun _ _ => [⟨1700000000000, 9, 9, 9, 9, 9⟩]) 3).1 :=
  (reconciler_never_overwrites [⟨7, "BTC-USDT-SWAP", "1h", 1700000000000, 1, 2, 1, 2, 1, 0⟩]
      "BTC-USDT-SWAP" "1h" [⟨1700000000000, 9, 9, 9, 9, 9⟩]
      ⟨"BTC-USDT-SWAP", "1h", 1700000000000, 1700000000000, 1, 1⟩
      (fun _ _ => [⟨1700000000000, 9, 9, 9, 9, 9⟩]) 3).2.2
    ⟨7, "BTC-USDT-SWAP", "1h", 1700000000000, 1, 2, 1, 2, 1, 0⟩ (by decide)
